import Mathlib

/-! ### Calendar arithmetic

Day numbers count days since 1970-01-01 (the Unix epoch, as used by pandas
`Timestamp` values, which are int64 nanosecond counts since that epoch).
The month/day extraction uses a March-based year so that the leap day falls
at the end of the year, following the standard civil-calendar algorithms. -/

/-- Leap year predicate (Gregorian), as a decidable proposition. -/
def IsLeap (y : Int) : Prop :=
  (y % 4 = 0 ∧ y % 100 ≠ 0) ∨ y % 400 = 0

instance (y : Int) : Decidable (IsLeap y) := by unfold IsLeap; infer_instance

/-- 1 in a leap year, 0 otherwise. -/
def leapDay (y : Int) : Int := if IsLeap y then 1 else 0

/-- Days in a month (as computed by Python's `calendar.monthrange`). -/
def daysInMonth (y m : Int) : Int :=
  if m = 2 then 28 + leapDay y
  else if m = 4 ∨ m = 6 ∨ m = 9 ∨ m = 11 then 30
  else 31

/-- Day number of March 1 of year `q`. -/
def marchYearStart (q : Int) : Int :=
  365 * q + q / 4 - q / 100 + q / 400 - 719468

/-- Day-of-march-year (0 = Mar 1, ..., 364/365 = end of February) converted to
a month counted from March (0 = Mar, ..., 11 = Feb): days before march-month
`mp` are `(153 * mp + 2) / 5`. -/
def marchMonthOf (doy : Int) : Int := (5 * doy + 2) / 153

/-- Day number since 1970-01-01 of the civil date `y-m-d`. -/
def daysFromCivil (y m d : Int) : Int :=
  marchYearStart (if m ≤ 2 then y - 1 else y)
    + (153 * (if m ≤ 2 then m + 9 else m - 3) + 2) / 5 + d - 1

/-- March-based year containing day number `z`: guess from a linear
approximation, then correct downward at most once. -/
def marchYearOfDay (z : Int) : Int :=
  if marchYearStart (1970 + (400 * z - 23191) / 146097) ≤ z then
    1970 + (400 * z - 23191) / 146097
  else 1970 + (400 * z - 23191) / 146097 - 1

/-- March-based month (0-11) of day number `z`. -/
def mpOf (z : Int) : Int := marchMonthOf (z - marchYearStart (marchYearOfDay z))

/-- Calendar year of day number `z`. -/
def cYear (z : Int) : Int :=
  if mpOf z < 10 then marchYearOfDay z else marchYearOfDay z + 1

/-- Calendar month of day number `z`. -/
def cMonth (z : Int) : Int := if mpOf z < 10 then mpOf z + 3 else mpOf z - 9

/-- Day-of-month of day number `z`. -/
def cDay (z : Int) : Int :=
  z - marchYearStart (marchYearOfDay z) - (153 * mpOf z + 2) / 5 + 1

theorem leapDay_cases (y : Int) : leapDay y = 0 ∨ leapDay y = 1 := by
  unfold leapDay
  split_ifs
  · right; rfl
  · left; rfl

/-- A march year has 365 days, plus a leap day (Feb 29) in its final
calendar year. -/
theorem marchYearStart_succ (q : Int) :
    marchYearStart (q + 1) = marchYearStart q + 365 + leapDay (q + 1) := by
  simp only [marchYearStart, leapDay, IsLeap]
  split_ifs <;> omega

/-- Bracketing: `marchYearOfDay` finds the march year whose span contains `z`. -/
theorem marchYearOfDay_le (z : Int) : marchYearStart (marchYearOfDay z) ≤ z := by
  simp only [marchYearOfDay, marchYearStart]
  split_ifs <;> omega

theorem lt_marchYearStart_succ (z : Int) : z < marchYearStart (marchYearOfDay z + 1) := by
  simp only [marchYearOfDay]
  split_ifs with h
  · simp only [marchYearStart] at *
    omega
  · have he : 1970 + (400 * z - 23191) / 146097 - 1 + 1 = 1970 + (400 * z - 23191) / 146097 := by
      ring
    rw [he]
    omega

/-- March-year day-of-year bound. -/
theorem mdoy_bounds (z : Int) :
    0 ≤ z - marchYearStart (marchYearOfDay z) ∧
    z - marchYearStart (marchYearOfDay z) < 365 + leapDay (marchYearOfDay z + 1) := by
  have h1 := marchYearOfDay_le z
  have h2 := lt_marchYearStart_succ z
  rw [marchYearStart_succ] at h2
  omega

/-- Roundtrip: `daysFromCivil` of the extracted civil date returns the day
number. -/
theorem daysFromCivil_cDate (z : Int) : daysFromCivil (cYear z) (cMonth z) (cDay z) = z := by
  have hd := mdoy_bounds z
  have hL := leapDay_cases (marchYearOfDay z + 1)
  simp only [cYear, cMonth, cDay, daysFromCivil, mpOf, marchMonthOf] at *
  split_ifs at * <;> first
    | omega
    | (ring_nf at *; try omega)

/-- Validity of the extracted civil date. -/
theorem cDate_valid (z : Int) :
    1 ≤ cMonth z ∧ cMonth z ≤ 12 ∧ 1 ≤ cDay z ∧
    cDay z ≤ daysInMonth (cYear z) (cMonth z) := by
  have hd := mdoy_bounds z
  have hL := leapDay_cases (marchYearOfDay z + 1)
  simp only [cYear, cMonth, cDay, daysInMonth, mpOf, marchMonthOf, leapDay, IsLeap] at *
  split_ifs at * <;> omega

/-- Day number of the first day of month index `i` (where month index
`12*y + (m-1)` identifies month `m` of year `y`). -/
def monthStartDay (i : Int) : Int := daysFromCivil (i / 12) (i % 12 + 1) 1

/-- Days in the month of month index `i`. -/
def dimIdx (i : Int) : Int := daysInMonth (i / 12) (i % 12 + 1)

/-- Month index of the civil date `(y, m)`. -/
def midx (y m : Int) : Int := 12 * y + m - 1

theorem daysFromCivil_eq_monthStart (y m d : Int) (h1 : 1 ≤ m) (h2 : m ≤ 12) :
    daysFromCivil y m d = monthStartDay (midx y m) + d - 1 := by
  have hq : (12 * y + m - 1) / 12 = y := by omega
  have hr : (12 * y + m - 1) % 12 = m - 1 := by omega
  simp only [monthStartDay, midx, daysFromCivil, hq, hr]
  have hm : m - 1 + 1 = m := by ring
  rw [hm]
  split_ifs <;> omega

theorem daysInMonth_eq_dimIdx (y m : Int) (h1 : 1 ≤ m) (h2 : m ≤ 12) :
    daysInMonth y m = dimIdx (midx y m) := by
  have hq : (12 * y + m - 1) / 12 = y := by omega
  have hr : (12 * y + m - 1) % 12 = m - 1 := by omega
  simp only [dimIdx, midx, hq, hr]
  have hm : m - 1 + 1 = m := by ring
  rw [hm]

theorem dimIdx_bounds (i : Int) : 28 ≤ dimIdx i ∧ dimIdx i ≤ 31 := by
  have hL := leapDay_cases (i / 12)
  simp only [dimIdx, daysInMonth]
  split_ifs <;> omega

theorem monthStartDay_succ (i : Int) :
    monthStartDay (i + 1) = monthStartDay i + dimIdx i := by
  rcases (by omega : i % 12 = 0 ∨ i % 12 = 1 ∨ i % 12 = 2 ∨ i % 12 = 3 ∨ i % 12 = 4 ∨
      i % 12 = 5 ∨ i % 12 = 6 ∨ i % 12 = 7 ∨ i % 12 = 8 ∨ i % 12 = 9 ∨ i % 12 = 10 ∨
      i % 12 = 11) with h | h | h | h | h | h | h | h | h | h | h | h
  · have hq : (i + 1) / 12 = i / 12 := by omega
    have hr : (i + 1) % 12 = 1 := by omega
    simp only [monthStartDay, dimIdx, daysFromCivil, daysInMonth, marchYearStart, leapDay,
      IsLeap, hq, hr, h]
    split_ifs <;> omega
  · have hq : (i + 1) / 12 = i / 12 := by omega
    have hr : (i + 1) % 12 = 2 := by omega
    simp only [monthStartDay, dimIdx, daysFromCivil, daysInMonth, marchYearStart, leapDay,
      IsLeap, hq, hr, h]
    split_ifs <;> omega
  · have hq : (i + 1) / 12 = i / 12 := by omega
    have hr : (i + 1) % 12 = 3 := by omega
    simp only [monthStartDay, dimIdx, daysFromCivil, daysInMonth, marchYearStart, leapDay,
      IsLeap, hq, hr, h]
    split_ifs <;> omega
  · have hq : (i + 1) / 12 = i / 12 := by omega
    have hr : (i + 1) % 12 = 4 := by omega
    simp only [monthStartDay, dimIdx, daysFromCivil, daysInMonth, marchYearStart, leapDay,
      IsLeap, hq, hr, h]
    split_ifs <;> omega
  · have hq : (i + 1) / 12 = i / 12 := by omega
    have hr : (i + 1) % 12 = 5 := by omega
    simp only [monthStartDay, dimIdx, daysFromCivil, daysInMonth, marchYearStart, leapDay,
      IsLeap, hq, hr, h]
    split_ifs <;> omega
  · have hq : (i + 1) / 12 = i / 12 := by omega
    have hr : (i + 1) % 12 = 6 := by omega
    simp only [monthStartDay, dimIdx, daysFromCivil, daysInMonth, marchYearStart, leapDay,
      IsLeap, hq, hr, h]
    split_ifs <;> omega
  · have hq : (i + 1) / 12 = i / 12 := by omega
    have hr : (i + 1) % 12 = 7 := by omega
    simp only [monthStartDay, dimIdx, daysFromCivil, daysInMonth, marchYearStart, leapDay,
      IsLeap, hq, hr, h]
    split_ifs <;> omega
  · have hq : (i + 1) / 12 = i / 12 := by omega
    have hr : (i + 1) % 12 = 8 := by omega
    simp only [monthStartDay, dimIdx, daysFromCivil, daysInMonth, marchYearStart, leapDay,
      IsLeap, hq, hr, h]
    split_ifs <;> omega
  · have hq : (i + 1) / 12 = i / 12 := by omega
    have hr : (i + 1) % 12 = 9 := by omega
    simp only [monthStartDay, dimIdx, daysFromCivil, daysInMonth, marchYearStart, leapDay,
      IsLeap, hq, hr, h]
    split_ifs <;> omega
  · have hq : (i + 1) / 12 = i / 12 := by omega
    have hr : (i + 1) % 12 = 10 := by omega
    simp only [monthStartDay, dimIdx, daysFromCivil, daysInMonth, marchYearStart, leapDay,
      IsLeap, hq, hr, h]
    split_ifs <;> omega
  · have hq : (i + 1) / 12 = i / 12 := by omega
    have hr : (i + 1) % 12 = 11 := by omega
    simp only [monthStartDay, dimIdx, daysFromCivil, daysInMonth, marchYearStart, leapDay,
      IsLeap, hq, hr, h]
    split_ifs <;> omega
  · have hq : (i + 1) / 12 = i / 12 + 1 := by omega
    have hr : (i + 1) % 12 = 0 := by omega
    simp only [monthStartDay, dimIdx, daysFromCivil, daysInMonth, marchYearStart, leapDay,
      IsLeap, hq, hr, h]
    split_ifs <;> omega

theorem monthStartDay_add (i : Int) (n : Nat) :
    monthStartDay i + 28 * n ≤ monthStartDay (i + n) ∧
    monthStartDay (i + n) ≤ monthStartDay i + 31 * n := by
  induction n with
  | zero => simp
  | succ k ih =>
    have hs := monthStartDay_succ (i + k)
    have hb := dimIdx_bounds (i + k)
    have hc : i + (k + 1 : Nat) = (i + k) + 1 := by push_cast; ring
    rw [hc, hs]
    push_cast at ih ⊢
    omega

/-- Strict monotonicity of month start days. -/
theorem monthStartDay_lt {i j : Int} (h : i < j) : monthStartDay i < monthStartDay j := by
  have hn : j = i + ((j - i).toNat : Int) := by omega
  have := monthStartDay_add i (j - i).toNat
  rw [← hn] at this
  omega

theorem monthStartDay_le {i j : Int} (h : i ≤ j) : monthStartDay i ≤ monthStartDay j := by
  rcases eq_or_lt_of_le h with rfl | h
  · exact le_refl _
  · exact le_of_lt (monthStartDay_lt h)

/-- Day number `z` lies in the month-start bracket of its own month index. -/
theorem z_bracket (z : Int) :
    monthStartDay (midx (cYear z) (cMonth z)) ≤ z ∧
    z < monthStartDay (midx (cYear z) (cMonth z) + 1) ∧
    z = monthStartDay (midx (cYear z) (cMonth z)) + cDay z - 1 := by
  have hv := cDate_valid z
  have hrt := daysFromCivil_cDate z
  have heq := daysFromCivil_eq_monthStart (cYear z) (cMonth z) (cDay z) (by omega) (by omega)
  have hsucc := monthStartDay_succ (midx (cYear z) (cMonth z))
  have hdim := daysInMonth_eq_dimIdx (cYear z) (cMonth z) (by omega) (by omega)
  omega

/-- Left inverse: the civil-date extraction of `daysFromCivil y m d` recovers
`(y, m, d)` whenever the date is valid. -/
theorem cDate_daysFromCivil (y m d : Int) (h1 : 1 ≤ m) (h2 : m ≤ 12) (h3 : 1 ≤ d)
    (h4 : d ≤ daysInMonth y m) :
    cYear (daysFromCivil y m d) = y ∧ cMonth (daysFromCivil y m d) = m ∧
    cDay (daysFromCivil y m d) = d := by
  have heq := daysFromCivil_eq_monthStart y m d h1 h2
  have hdim := daysInMonth_eq_dimIdx y m h1 h2
  generalize hgen : daysFromCivil y m d = z at heq ⊢
  have hb := z_bracket z
  have hv := cDate_valid z
  have hsucc := monthStartDay_succ (midx y m)
  have hidx : midx (cYear z) (cMonth z) = midx y m := by
    by_contra hne
    rcases lt_or_gt_of_ne hne with hlt | hgt
    · have hle := monthStartDay_le (by omega : midx (cYear z) (cMonth z) + 1 ≤ midx y m)
      omega
    · have hle := monthStartDay_le (by omega : midx y m + 1 ≤ midx (cYear z) (cMonth z))
      omega
  rw [hidx] at hb
  have h5 := hv.1
  have h6 := hv.2.1
  simp only [midx] at hidx
  refine ⟨by omega, by omega, by omega⟩

/-! ### Timestamps and pandas date offsets

Timestamps are integers counting nanoseconds since the epoch (the
representation pandas `Timestamp` uses). Anchored date offsets operate on the
civil date of a timestamp and preserve its time of day, following the pandas
`DateOffset` classes (`Week(weekday=6)`, `MonthBegin`, `MonthEnd`,
`QuarterBegin(startingMonth=1)`, `QuarterEnd(startingMonth=3)`, `YearBegin`,
`YearEnd`) that `to_offset` returns for the aliases used by `timesplit`. -/

def nsPerDay : Int := 86400000000000

def nsPerHour : Int := 3600000000000

/-- Day number containing timestamp `t`. -/
def dayOf (t : Int) : Int := t / nsPerDay

/-- Time of day of timestamp `t`, in nanoseconds. -/
def todOf (t : Int) : Int := t % nsPerDay

/-- Move timestamp `t` to day number `z`, preserving the time of day. -/
def withDay (t z : Int) : Int := nsPerDay * z + todOf t

/-- Python `date.weekday()` of timestamp `t`: Monday = 0, ..., Sunday = 6
(1970-01-01 was a Thursday). -/
def wdayOf (t : Int) : Int := (dayOf t + 3) % 7

/-- Month index (`12*year + month - 1`) of the day of timestamp `t`. -/
def midxOf (t : Int) : Int := midx (cYear (dayOf t)) (cMonth (dayOf t))

/-- The pandas date offsets reachable from `timesplit`'s `to_offset` call. -/
inductive POffset : Type
  | tick (ns : Int)
  | week (n : Int)
  | monthBegin (n : Int)
  | monthEnd (n : Int)
  | quarterBegin (n : Int)
  | quarterEnd (n : Int)
  | yearBegin (n : Int)
  | yearEnd (n : Int)
deriving DecidableEq, Repr

/-- Apply a pandas date offset to a timestamp (pandas `Timestamp + offset`,
or `Timestamp - offset` after negating via `negOff`). -/
def applyOffset (o : POffset) (t : Int) : Int :=
  match o with
  | .tick ns => t + ns
  | .week n =>
    if wdayOf t = 6 then t + 7 * n * nsPerDay
    else if 0 < n then t + ((6 - wdayOf t) % 7) * nsPerDay + 7 * (n - 1) * nsPerDay
    else t + ((6 - wdayOf t) % 7) * nsPerDay + 7 * n * nsPerDay
  | .monthBegin n =>
    let n' := if 1 < cDay (dayOf t) ∧ n ≤ 0 then n + 1 else n
    withDay t (monthStartDay (midxOf t + n'))
  | .monthEnd n =>
    if cDay (dayOf t) = daysInMonth (cYear (dayOf t)) (cMonth (dayOf t)) then
      withDay t (monthStartDay (midxOf t + n + 1) - 1)
    else
      let n' := if n ≤ 0 then n + 1 else n
      withDay t (monthStartDay (midxOf t + n') - 1)
  | .quarterBegin n =>
    let ms := (cMonth (dayOf t) - 1) % 3
    let ms' := if n ≤ 0 ∧ ms ≠ 0 then ms - 3 else ms
    let n' := if n ≤ 0 ∧ ms' = 0 ∧ 1 < cDay (dayOf t) then n + 1 else n
    withDay t (monthStartDay (midxOf t + 3 * n' - ms'))
  | .quarterEnd n =>
    let mtg0 := 3 - (cMonth (dayOf t) - 3) % 3
    let mtg := if mtg0 = 3 then 0 else mtg0
    let n' := if 0 < n ∧
        ¬(daysInMonth (cYear (dayOf t)) (cMonth (dayOf t)) ≤ cDay (dayOf t) ∧ mtg = 0) then
      n - 1 else n
    withDay t (monthStartDay (midxOf t + mtg + 3 * n' + 1) - 1)
  | .yearBegin n =>
    let n' := if (cMonth (dayOf t) ≠ 1 ∨ 1 < cDay (dayOf t)) ∧ n ≤ 0 then n + 1 else n
    withDay t (monthStartDay (12 * (cYear (dayOf t) + n')))
  | .yearEnd n =>
    if cMonth (dayOf t) = 12 ∧ cDay (dayOf t) = 31 then
      withDay t (monthStartDay (12 * (cYear (dayOf t) + n + 1)) - 1)
    else
      let n' := if n ≤ 0 then n + 1 else n
      withDay t (monthStartDay (12 * (cYear (dayOf t) - 1 + n' + 1)) - 1)

/-- The offset multiplied by zero (pandas `0 * offset`). -/
def zeroOff : POffset → POffset
  | .tick _ => .tick 0
  | .week _ => .week 0
  | .monthBegin _ => .monthBegin 0
  | .monthEnd _ => .monthEnd 0
  | .quarterBegin _ => .quarterBegin 0
  | .quarterEnd _ => .quarterEnd 0
  | .yearBegin _ => .yearBegin 0
  | .yearEnd _ => .yearEnd 0

/-- The negated offset (pandas `-offset`, used by `t - offset`). -/
def negOff : POffset → POffset
  | .tick ns => .tick (-ns)
  | .week n => .week (-n)
  | .monthBegin n => .monthBegin (-n)
  | .monthEnd n => .monthEnd (-n)
  | .quarterBegin n => .quarterBegin (-n)
  | .quarterEnd n => .quarterEnd (-n)
  | .yearBegin n => .yearBegin (-n)
  | .yearEnd n => .yearEnd (-n)

theorem t_decomp (t : Int) : t = nsPerDay * dayOf t + todOf t ∧ 0 ≤ todOf t ∧
    todOf t < nsPerDay := by
  simp only [dayOf, todOf, nsPerDay]
  omega

theorem dayOf_withDay (t z : Int) : dayOf (withDay t z) = z ∧
    todOf (withDay t z) = todOf t := by
  simp only [dayOf, todOf, withDay, nsPerDay]
  omega

theorem lt_withDay {t z : Int} (h : dayOf t < z) : t < withDay t z := by
  have := t_decomp t
  simp only [withDay, nsPerDay] at *
  omega

theorem withDay_lt {t z : Int} (h : z ≤ dayOf t) : withDay t z ≤ t := by
  have := t_decomp t
  simp only [withDay, nsPerDay] at *
  omega

theorem lt_monthStart_of_le {z j : Int} (hj : midx (cYear z) (cMonth z) + 1 ≤ j) :
    z < monthStartDay j := by
  have hb := z_bracket z
  have hmono := monthStartDay_le hj
  omega

theorem lt_monthStart_sub_one_of_lt {z j : Int} (hj : midx (cYear z) (cMonth z) + 1 < j) :
    z < monthStartDay j - 1 := by
  have hb := z_bracket z
  have hmono := monthStartDay_le (by omega : midx (cYear z) (cMonth z) + 1 ≤ j - 1)
  have hsucc := monthStartDay_succ (j - 1)
  rw [(by ring : j - 1 + 1 = j)] at hsucc
  have hd := dimIdx_bounds (j - 1)
  omega

theorem lt_monthStart_sub_one_of_ne {z j : Int}
    (hne : cDay z ≠ daysInMonth (cYear z) (cMonth z))
    (hj : midx (cYear z) (cMonth z) + 1 ≤ j) :
    z < monthStartDay j - 1 := by
  have hb := z_bracket z
  have hv := cDate_valid z
  have hdim := daysInMonth_eq_dimIdx (cYear z) (cMonth z) (by omega) (by omega)
  have hsucc := monthStartDay_succ (midx (cYear z) (cMonth z))
  have hmono := monthStartDay_le hj
  omega

theorem lt_apply_week {n t : Int} (hn : 1 ≤ n) : t < applyOffset (.week n) t := by
  simp only [applyOffset, wdayOf, nsPerDay]
  split_ifs <;> omega

theorem lt_apply_monthBegin {n t : Int} (hn : 1 ≤ n) : t < applyOffset (.monthBegin n) t := by
  simp only [applyOffset, midxOf]
  have hcond : ¬(1 < cDay (dayOf t) ∧ n ≤ 0) := by omega
  rw [if_neg hcond]
  exact lt_withDay (lt_monthStart_of_le (by omega))

theorem lt_apply_monthEnd {n t : Int} (hn : 1 ≤ n) : t < applyOffset (.monthEnd n) t := by
  simp only [applyOffset, midxOf]
  split_ifs with h1 h2
  · exact lt_withDay (lt_monthStart_sub_one_of_lt (by omega))
  · exact absurd hn (by omega)
  · exact lt_withDay (lt_monthStart_sub_one_of_ne h1 (by omega))

theorem lt_apply_quarterBegin {n t : Int} (hn : 1 ≤ n) :
    t < applyOffset (.quarterBegin n) t := by
  simp only [applyOffset, midxOf]
  have hms : ¬(n ≤ 0 ∧ (cMonth (dayOf t) - 1) % 3 ≠ 0) := by omega
  rw [if_neg hms]
  have hn2 : ¬(n ≤ 0 ∧ (cMonth (dayOf t) - 1) % 3 = 0 ∧ 1 < cDay (dayOf t)) := by omega
  rw [if_neg hn2]
  exact lt_withDay (lt_monthStart_of_le (by omega))

theorem lt_apply_quarterEnd {n t : Int} (hn : 1 ≤ n) :
    t < applyOffset (.quarterEnd n) t := by
  have hv := cDate_valid (dayOf t)
  simp only [applyOffset, midxOf]
  split_ifs with h1 h2 h3
  · -- `mtg = 0`, rolling: not at the quarter end, so the day is below the month end
    exact lt_withDay (lt_monthStart_sub_one_of_ne (by omega) (by omega))
  · -- `mtg = 0`, at the quarter end: step `3n` months
    exact lt_withDay (lt_monthStart_sub_one_of_lt (by omega))
  · -- `mtg ∈ {1, 2}`, rolling: the target month is at least two months ahead
    exact lt_withDay (lt_monthStart_sub_one_of_lt (by omega))
  · -- `mtg ∈ {1, 2}` and not rolling is impossible for `n ≥ 1`
    exact absurd hn (by omega)

theorem lt_apply_yearBegin {n t : Int} (hn : 1 ≤ n) : t < applyOffset (.yearBegin n) t := by
  have hv := cDate_valid (dayOf t)
  simp only [applyOffset, midxOf]
  have hcond : ¬((cMonth (dayOf t) ≠ 1 ∨ 1 < cDay (dayOf t)) ∧ n ≤ 0) := by omega
  rw [if_neg hcond]
  exact lt_withDay (lt_monthStart_of_le (by simp only [midx]; omega))

theorem lt_apply_yearEnd {n t : Int} (hn : 1 ≤ n) : t < applyOffset (.yearEnd n) t := by
  have hv := cDate_valid (dayOf t)
  have hdy : daysInMonth (cYear (dayOf t)) 12 = 31 := by norm_num [daysInMonth]
  simp only [applyOffset, midxOf]
  split_ifs with h1 h2
  · exact lt_withDay (lt_monthStart_sub_one_of_lt (by simp only [midx]; omega))
  · exact absurd hn (by omega)
  · rcases eq_or_ne (cMonth (dayOf t)) 12 with hm | hm
    · refine lt_withDay (lt_monthStart_sub_one_of_ne ?_ (by simp only [midx]; omega))
      rw [hm, hdy]
      intro hc
      exact h1 ⟨hm, hc⟩
    · exact lt_withDay (lt_monthStart_sub_one_of_lt (by simp only [midx]; omega))

theorem monthStart_le_of_le {z j : Int} (hj : j ≤ midx (cYear z) (cMonth z)) :
    monthStartDay j ≤ z := by
  have hb := z_bracket z
  have hmono := monthStartDay_le hj
  omega

theorem monthStart_sub_one_le_of_le {z j : Int} (hj : j ≤ midx (cYear z) (cMonth z)) :
    monthStartDay j - 1 ≤ z := by
  have := monthStart_le_of_le hj
  omega

theorem monthStart_sub_one_le_of_end {z j : Int}
    (hend : cDay z = daysInMonth (cYear z) (cMonth z))
    (hj : j ≤ midx (cYear z) (cMonth z) + 1) :
    monthStartDay j - 1 ≤ z := by
  have hb := z_bracket z
  have hv := cDate_valid z
  have hdim := daysInMonth_eq_dimIdx (cYear z) (cMonth z) (by omega) (by omega)
  have hsucc := monthStartDay_succ (midx (cYear z) (cMonth z))
  have hmono := monthStartDay_le hj
  omega

/-- The offset has a positive count. -/
def offPos : POffset → Prop
  | .tick ns => 1 ≤ ns
  | .week n => 1 ≤ n
  | .monthBegin n => 1 ≤ n
  | .monthEnd n => 1 ≤ n
  | .quarterBegin n => 1 ≤ n
  | .quarterEnd n => 1 ≤ n
  | .yearBegin n => 1 ≤ n
  | .yearEnd n => 1 ≤ n

instance (o : POffset) : Decidable (offPos o) := by
  unfold offPos
  cases o <;> simp only <;> infer_instance

/-- Subtracting a positive offset never moves a timestamp forward. -/
theorem applyNeg_le {o : POffset} {t : Int} (hpos : offPos o) :
    applyOffset (negOff o) t ≤ t := by
  unfold offPos at hpos
  match o with
  | .tick ns => simp only [negOff, applyOffset]; omega
  | .week n =>
    simp only [negOff, applyOffset, wdayOf, nsPerDay] at *
    split_ifs <;> omega
  | .monthBegin n =>
    have hv := cDate_valid (dayOf t)
    simp only [negOff, applyOffset, midxOf]
    split_ifs <;> exact withDay_lt (monthStart_le_of_le (by omega))
  | .monthEnd n =>
    have hv := cDate_valid (dayOf t)
    simp only [negOff, applyOffset, midxOf]
    split_ifs with h1 h2
    · exact withDay_lt (monthStart_sub_one_le_of_end h1 (by omega))
    · exact withDay_lt (monthStart_sub_one_le_of_le (by omega))
    · exact absurd hpos (by omega)
  | .quarterBegin n =>
    have hv := cDate_valid (dayOf t)
    have hmod : 0 ≤ (cMonth (dayOf t) - 1) % 3 ∧ (cMonth (dayOf t) - 1) % 3 ≤ 2 := by omega
    simp only [negOff, applyOffset, midxOf]
    split_ifs <;> exact withDay_lt (monthStart_le_of_le (by omega))
  | .quarterEnd n =>
    have hv := cDate_valid (dayOf t)
    have hmod : 0 ≤ (cMonth (dayOf t) - 3) % 3 ∧ (cMonth (dayOf t) - 3) % 3 ≤ 2 := by omega
    simp only [negOff, applyOffset, midxOf]
    split_ifs <;> exact withDay_lt (monthStart_sub_one_le_of_le (by omega))
  | .yearBegin n =>
    have hv := cDate_valid (dayOf t)
    simp only [negOff, applyOffset, midxOf]
    split_ifs <;> exact withDay_lt (monthStart_le_of_le (by simp only [midx]; omega))
  | .yearEnd n =>
    have hv := cDate_valid (dayOf t)
    simp only [negOff, applyOffset, midxOf]
    split_ifs <;> exact withDay_lt (monthStart_sub_one_le_of_le (by simp only [midx]; omega))

/-- Positive offsets strictly advance any timestamp. -/
theorem lt_applyOffset {o : POffset} {t : Int} (hpos : offPos o) : t < applyOffset o t := by
  unfold offPos at hpos
  match o with
  | .tick ns => simp only [applyOffset]; omega
  | .week n => exact lt_apply_week hpos
  | .monthBegin n => exact lt_apply_monthBegin hpos
  | .monthEnd n => exact lt_apply_monthEnd hpos
  | .quarterBegin n => exact lt_apply_quarterBegin hpos
  | .quarterEnd n => exact lt_apply_quarterEnd hpos
  | .yearBegin n => exact lt_apply_yearBegin hpos
  | .yearEnd n => exact lt_apply_yearEnd hpos

/-- Civil fields of the first day of month index `i`. -/
theorem cDate_monthStart (i : Int) :
    cYear (monthStartDay i) = i / 12 ∧ cMonth (monthStartDay i) = i % 12 + 1 ∧
    cDay (monthStartDay i) = 1 := by
  have hd := dimIdx_bounds i
  have h := cDate_daysFromCivil (i / 12) (i % 12 + 1) 1 (by omega) (by omega) (by omega)
    (by rw [daysInMonth_eq_dimIdx _ _ (by omega) (by omega)]
        simp only [midx]
        rw [(by omega : 12 * (i / 12) + (i % 12 + 1) - 1 = i)]
        omega)
  simpa only [monthStartDay] using h

/-- Civil fields of the last day of the month before month index `i`. -/
theorem cDate_monthEnd (i : Int) :
    cYear (monthStartDay i - 1) = (i - 1) / 12 ∧
    cMonth (monthStartDay i - 1) = (i - 1) % 12 + 1 ∧
    cDay (monthStartDay i - 1) = dimIdx (i - 1) ∧
    cDay (monthStartDay i - 1) =
      daysInMonth (cYear (monthStartDay i - 1)) (cMonth (monthStartDay i - 1)) := by
  have hd := dimIdx_bounds (i - 1)
  have hdim : daysInMonth ((i - 1) / 12) ((i - 1) % 12 + 1) = dimIdx (i - 1) := by
    rw [daysInMonth_eq_dimIdx _ _ (by omega) (by omega)]
    simp only [midx]
    rw [(by omega : 12 * ((i - 1) / 12) + ((i - 1) % 12 + 1) - 1 = i - 1)]
  have hsucc := monthStartDay_succ (i - 1)
  rw [(by ring : i - 1 + 1 = i)] at hsucc
  have heq : monthStartDay i - 1 = daysFromCivil ((i - 1) / 12) ((i - 1) % 12 + 1)
      (dimIdx (i - 1)) := by
    rw [daysFromCivil_eq_monthStart _ _ _ (by omega) (by omega)]
    simp only [midx]
    rw [(by omega : 12 * ((i - 1) / 12) + ((i - 1) % 12 + 1) - 1 = i - 1)]
    omega
  have h := cDate_daysFromCivil ((i - 1) / 12) ((i - 1) % 12 + 1) (dimIdx (i - 1))
    (by omega) (by omega) (by omega) (by omega)
  rw [← heq] at h
  refine ⟨h.1, h.2.1, h.2.2, ?_⟩
  rw [h.1, h.2.1, h.2.2, hdim]

theorem withDay_self (t : Int) : withDay t (dayOf t) = t := by
  have h := t_decomp t
  simp only [withDay]
  omega

theorem todOf_withDay (t z : Int) : todOf (withDay t z) = todOf t := (dayOf_withDay t z).2

theorem withDay_withDay (t z w : Int) : withDay (withDay t z) w = withDay t w := by
  have h := todOf_withDay t z
  simp only [withDay] at h ⊢
  omega

theorem zf_week {s : Int} (h : wdayOf s = 6) : applyOffset (.week 0) s = s := by
  simp only [applyOffset, h, if_pos]
  ring

theorem zf_monthBegin (t i : Int) :
    applyOffset (.monthBegin 0) (withDay t (monthStartDay i)) = withDay t (monthStartDay i) := by
  have hd := (dayOf_withDay t (monthStartDay i)).1
  have hc := cDate_monthStart i
  simp only [applyOffset, midxOf, hd, hc.1, hc.2.1, hc.2.2]
  rw [if_neg (by omega)]
  rw [(by simp only [midx]; omega : midx (i / 12) (i % 12 + 1) + 0 = i)]
  exact withDay_withDay t _ _

theorem zf_monthEnd (t i : Int) :
    applyOffset (.monthEnd 0) (withDay t (monthStartDay i - 1)) =
      withDay t (monthStartDay i - 1) := by
  have hd := (dayOf_withDay t (monthStartDay i - 1)).1
  have hc := cDate_monthEnd i
  simp only [applyOffset, midxOf, hd, hc.1, hc.2.1]
  rw [if_pos (by rw [← hc.1, ← hc.2.1]; exact hc.2.2.2)]
  rw [(by simp only [midx]; omega : midx ((i - 1) / 12) ((i - 1) % 12 + 1) + 0 + 1 = i)]
  exact withDay_withDay t _ _

theorem zf_quarterBegin (t i : Int) (h3 : i % 3 = 0) :
    applyOffset (.quarterBegin 0) (withDay t (monthStartDay i)) =
      withDay t (monthStartDay i) := by
  have hd := (dayOf_withDay t (monthStartDay i)).1
  have hc := cDate_monthStart i
  simp only [applyOffset, midxOf, hd, hc.1, hc.2.1, hc.2.2]
  rw [if_neg (by omega)]
  rw [if_neg (by omega)]
  rw [(by simp only [midx]; omega :
    midx (i / 12) (i % 12 + 1) + 3 * 0 - (i % 12 + 1 - 1) % 3 = i)]
  exact withDay_withDay t _ _

theorem zf_quarterEnd (t i : Int) (h3 : i % 3 = 0) :
    applyOffset (.quarterEnd 0) (withDay t (monthStartDay i - 1)) =
      withDay t (monthStartDay i - 1) := by
  have hd := (dayOf_withDay t (monthStartDay i - 1)).1
  have hc := cDate_monthEnd i
  simp only [applyOffset, midxOf, hd, hc.1, hc.2.1]
  rw [(by omega : 3 - ((i - 1) % 12 + 1 - 3) % 3 = 3)]
  rw [if_pos (rfl : (3 : Int) = 3)]
  rw [if_neg (by omega : ¬(0 < (0 : Int) ∧
    ¬(daysInMonth ((i - 1) / 12) ((i - 1) % 12 + 1) ≤ cDay (monthStartDay i - 1) ∧
      (0 : Int) = 0)))]
  rw [(by simp only [midx]; omega : midx ((i - 1) / 12) ((i - 1) % 12 + 1) + 0 + 3 * 0 + 1 = i)]
  exact withDay_withDay t _ _

theorem zf_yearBegin (t y : Int) :
    applyOffset (.yearBegin 0) (withDay t (monthStartDay (12 * y))) =
      withDay t (monthStartDay (12 * y)) := by
  have hd := (dayOf_withDay t (monthStartDay (12 * y))).1
  have hc := cDate_monthStart (12 * y)
  simp only [applyOffset, midxOf, hd, hc.1, hc.2.1, hc.2.2]
  rw [if_neg (by omega)]
  rw [(by omega : 12 * (12 * y / 12 + 0) = 12 * y)]
  exact withDay_withDay t _ _

theorem zf_yearEnd (t y : Int) :
    applyOffset (.yearEnd 0) (withDay t (monthStartDay (12 * y) - 1)) =
      withDay t (monthStartDay (12 * y) - 1) := by
  have hd := (dayOf_withDay t (monthStartDay (12 * y) - 1)).1
  have hc := cDate_monthEnd (12 * y)
  have h31 : dimIdx (12 * y - 1) = 31 := by
    simp only [dimIdx]
    rw [(by omega : (12 * y - 1) % 12 = 11)]
    norm_num [daysInMonth]
  simp only [applyOffset, midxOf, hd, hc.1, hc.2.1]
  rw [if_pos (by rw [hc.2.2.1, h31]; exact ⟨by omega, rfl⟩)]
  rw [(by omega : 12 * ((12 * y - 1) / 12 + 0 + 1) = 12 * y)]
  exact withDay_withDay t _ _

/-- Weekday arithmetic: shifting by whole days shifts the weekday mod 7. -/
theorem wdayOf_add_days (t k : Int) : wdayOf (t + k * nsPerDay) = (wdayOf t + k) % 7 := by
  simp only [wdayOf, dayOf, nsPerDay]
  omega

theorem shape_monthBegin (n t : Int) :
    ∃ i, applyOffset (.monthBegin n) t = withDay t (monthStartDay i) := by
  simp only [applyOffset]
  exact ⟨_, rfl⟩

theorem shape_monthEnd (n t : Int) :
    ∃ i, applyOffset (.monthEnd n) t = withDay t (monthStartDay i - 1) := by
  simp only [applyOffset]
  split_ifs <;> exact ⟨_, rfl⟩

theorem shape_quarterBegin (n t : Int) :
    ∃ i, i % 3 = 0 ∧ applyOffset (.quarterBegin n) t = withDay t (monthStartDay i) := by
  have hv := cDate_valid (dayOf t)
  simp only [applyOffset]
  split_ifs <;> exact ⟨_, by simp only [midxOf, midx]; omega, rfl⟩

theorem shape_quarterEnd (n t : Int) :
    ∃ i, i % 3 = 0 ∧ applyOffset (.quarterEnd n) t = withDay t (monthStartDay i - 1) := by
  have hv := cDate_valid (dayOf t)
  simp only [applyOffset]
  split_ifs <;> exact ⟨_, by simp only [midxOf, midx]; omega, rfl⟩

theorem shape_yearBegin (n t : Int) :
    ∃ y, applyOffset (.yearBegin n) t = withDay t (monthStartDay (12 * y)) := by
  simp only [applyOffset]
  exact ⟨_, rfl⟩

theorem shape_yearEnd (n t : Int) :
    ∃ y, applyOffset (.yearEnd n) t = withDay t (monthStartDay (12 * y) - 1) := by
  simp only [applyOffset]
  split_ifs <;> exact ⟨_, rfl⟩

/-- After stepping back one offset period, the timestamp sits on an offset
boundary: applying the zero multiple of the offset leaves it unchanged. -/
theorem zeroOff_fix_stepback (o : POffset) (hpos : offPos o) (t : Int) :
    applyOffset (zeroOff o) (applyOffset (negOff o) t) = applyOffset (negOff o) t := by
  unfold offPos at hpos
  match o with
  | .tick ns =>
    simp only [negOff, zeroOff, applyOffset]
    ring
  | .week n =>
    simp only [negOff, zeroOff]
    refine zf_week ?_
    simp only [applyOffset]
    split_ifs with h1 h2
    · rw [wdayOf_add_days]
      omega
    · omega
    · rw [(by ring : t + (6 - wdayOf t) % 7 * nsPerDay + 7 * -n * nsPerDay =
        t + ((6 - wdayOf t) % 7 + 7 * -n) * nsPerDay)]
      rw [wdayOf_add_days]
      simp only [wdayOf] at h1 ⊢
      omega
  | .monthBegin n =>
    simp only [negOff, zeroOff]
    obtain ⟨i, hi⟩ := shape_monthBegin (-n) t
    rw [hi]
    exact zf_monthBegin t i
  | .monthEnd n =>
    simp only [negOff, zeroOff]
    obtain ⟨i, hi⟩ := shape_monthEnd (-n) t
    rw [hi]
    exact zf_monthEnd t i
  | .quarterBegin n =>
    simp only [negOff, zeroOff]
    obtain ⟨i, h3, hi⟩ := shape_quarterBegin (-n) t
    rw [hi]
    exact zf_quarterBegin t i h3
  | .quarterEnd n =>
    simp only [negOff, zeroOff]
    obtain ⟨i, h3, hi⟩ := shape_quarterEnd (-n) t
    rw [hi]
    exact zf_quarterEnd t i h3
  | .yearBegin n =>
    simp only [negOff, zeroOff]
    obtain ⟨y, hy⟩ := shape_yearBegin (-n) t
    rw [hy]
    exact zf_yearBegin t y
  | .yearEnd n =>
    simp only [negOff, zeroOff]
    obtain ⟨y, hy⟩ := shape_yearEnd (-n) t
    rw [hy]
    exact zf_yearEnd t y

/-! ### The `timesplit` model

Models `QueryResults.timesplit` from
`datalab/stackdriver/monitoring/_query_results.py`. A query-result dataframe
is a list of rows, each a timestamp (int64 nanoseconds, the pandas
representation) paired with the row's payload (the values of all columns,
kept abstract). `timesplit` is modeled at its default `use_average=False`;
the averaging branch (which would need floating-point row means) is outside
the modeled claims. Python exceptions are modeled by `Except`, and a
non-terminating `while` loop (possible for a zero count such as `'0D'`)
by the `diverge` error. -/

/-- Uppercase an ASCII letter (models Python `str.upper`, which `timesplit`
applies to its `freq` argument; the alias strings involved are ASCII). -/
def charUpper (c : Char) : Char :=
  if h : 97 ≤ c.toNat ∧ c.toNat ≤ 122 then
    Char.ofNatAux (c.toNat - 32) (Or.inl (by omega))
  else c

def pyUpper (s : String) : String := ⟨s.data.map charUpper⟩

theorem toNat_ofNatAux (n : Nat) (h : n.isValidChar) : (Char.ofNatAux n h).toNat = n := rfl

theorem charUpper_idem (c : Char) : charUpper (charUpper c) = charUpper c := by
  unfold charUpper
  split_ifs with h1 h2
  · rw [toNat_ofNatAux] at h2
    omega
  · rfl
  · rfl

theorem pyUpper_idem (s : String) : pyUpper (pyUpper s) = pyUpper s := by
  simp only [pyUpper, List.map_map]
  congr 1
  exact List.map_congr_left (fun c _ => charUpper_idem c)

/-- Models `re.match(r'(\d*)(H|D|W|M|Q|A)$', freq)`: an optional run of
digits followed by a single unit letter. Returns `(group(1), group(2))`. -/
def matchFreq (s : String) : Option (List Char × Char) :=
  match s.data.getLast? with
  | none => none
  | some c =>
    if (c = 'H' ∨ c = 'D' ∨ c = 'W' ∨ c = 'M' ∨ c = 'Q' ∨ c = 'A') ∧
        s.data.dropLast.all (fun d => decide ('0' ≤ d ∧ d ≤ '9')) then
      some (s.data.dropLast, c)
    else none

/-- Value of a digit string (models Python `int` on the matched digits). -/
def digitsVal (cs : List Char) : Nat := cs.foldl (fun a c => 10 * a + (c.toNat - 48)) 0

/-- Models the `freq_to_full` dict of `timesplit`. -/
def freqFull : Char → String
  | 'H' => "hour"
  | 'D' => "day"
  | 'W' => "week"
  | 'M' => "month"
  | 'Q' => "quarter"
  | _ => "year"

/-- Models `pandas.tseries.frequencies.to_offset` on the alias strings
`timesplit` can pass it: an optional count with unit H, D, W, M, Q or A, where
`timesplit` has replaced the bare strings `M`, `Q`, `A` by `MS`, `QS`, `AS`
(`sSuffix`), which select the begin-anchored offsets; counted forms keep the
end-anchored (`MonthEnd`, `QuarterEnd`, `YearEnd`) or tick/week offsets. -/
def toOffset (count : Int) (unit : Char) (sSuffix : Bool) : POffset :=
  match unit with
  | 'H' => .tick (count * nsPerHour)
  | 'D' => .tick (count * nsPerDay)
  | 'W' => .week count
  | 'M' => if sSuffix then .monthBegin count else .monthEnd count
  | 'Q' => if sSuffix then .quarterBegin count else .quarterEnd count
  | _ => if sSuffix then .yearBegin count else .yearEnd count

/-- Models `Timestamp.replace(minute=0, second=0, microsecond=0)`: zero the
minute/second/microsecond fields; the separate nanosecond field survives. -/
def truncMinSec (t : Int) : Int := nsPerHour * (t / nsPerHour) + t % 1000

/-- Models `Timestamp.replace(hour=0)`: zero the hour field, keeping
everything below it. -/
def replaceHourZero (t : Int) : Int := nsPerDay * (t / nsPerDay) + t % nsPerHour

/-- Models lines 249-257 of `_query_results.py`: truncate the first index
value, and step one period back if not on an offset boundary. `freqS` is the
(uppercased, possibly `S`-suffixed) frequency string. -/
def firstStartTime (t0 : Int) (freqS : String) (off : POffset) : Int :=
  let t1 := truncMinSec t0
  let t2 := if freqS ≠ "H" then replaceHourZero t1 else t1
  if t2 ≠ applyOffset (zeroOff off) t2 then applyOffset (negOff off) t2 else t2

/-- Models the result-set object: the dataframe rows plus `metric_type`. -/
structure QR (α : Type) where
  rows : List (Int × α)
  metricType : String
deriving DecidableEq, Repr

/-- Models pandas label slicing `df[a:b]` on a datetime index: the rows whose
timestamp lies in the closed interval. -/
def sliceRows (rows : List (Int × α)) (a b : Int) : List (Int × α) :=
  rows.filter (fun r => a ≤ r.1 ∧ r.1 ≤ b)

/-- Models `df.tshift(freq=delta)`: shift every index entry by `delta`. -/
def tshiftRows (rows : List (Int × α)) (delta : Int) : List (Int × α) :=
  rows.map (fun r => (r.1 + delta, r.2))

/-- Models the `while new_start_time <= index[-1]` slicing loop of
`timesplit`. Returns `none` when the loop would never terminate (the offset
fails to advance the start time). -/
def splitLoop (off : POffset) (rows : List (Int × α)) (last : Int) (s : Int) :
    Option (List (List (Int × α))) :=
  if hle : s ≤ last then
    if hlt : s < applyOffset off s then
      match splitLoop off rows last (applyOffset off s) with
      | none => none
      | some parts => some (sliceRows rows s (applyOffset off s - 1) :: parts)
    else none
  else some []
termination_by (last + 1 - s).toNat
decreasing_by
  omega

/-- Python exception outcomes of `timesplit`. -/
inductive PyErr : Type
  | valueError
  | indexError
  | keyError
  | diverge
deriving DecidableEq, Repr

/-- Models the `tshift` loop: every dataframe except the last is shifted to
line up with `last_start_time`; reading `df.index[0]` of an empty slice
raises `IndexError`. -/
def tshiftAll (lastStart : Int) : List (List (Int × α)) → Option (List (List (Int × α)))
  | [] => some []
  | df :: dfs =>
    match df.head? with
    | none => none
    | some r =>
      match tshiftAll lastStart dfs with
      | none => none
      | some rest => some (tshiftRows df (lastStart - r.1) :: rest)

/-- The parsed count: 1 when no digits were given (models
`freq_count = 1 if not regex_match.group(1) else int(regex_match.group(1))`). -/
def freqCountOf (digits : List Char) : Int :=
  if digits.isEmpty then 1 else (digitsVal digits : Int)

/-- Labels for the older intervals (models the
`for i, df in enumerate(other_dataframes)` loop, called with `i + 1`
starting at 1). -/
def labelOthers (freqCount : Int) (freqName : String) :
    Int → List (List (Int × α)) → List (QR α)
  | _, [] => []
  | i, df :: dfs =>
    let count := i * freqCount
    let u := if count = 1 then freqName else freqName ++ "s"
    QR.mk df (toString count ++ " " ++ u ++ " ago") :: labelOthers freqCount freqName (i + 1) dfs

/-- Tail of `timesplit` from the point where `split_dataframes` is complete:
drop an undersized trailing partition, time-shift the older partitions onto
the last one, and attach the labels. -/
def postSplit (parts : List (List (Int × α))) (minPoints freqCount : Int)
    (freqName : String) : Except PyErr (List (QR α)) :=
  match parts.getLast? with
  | none => .error .indexError
  | some lastPart =>
    let parts2 := if (lastPart.length : Int) < minPoints then parts.dropLast else parts
    match parts2.getLast? with
    | none => .ok []
    | some lastDf =>
      match lastDf.head? with
      | none => .error .indexError
      | some rl =>
        match tshiftAll rl.1 parts2.dropLast with
        | none => .error .indexError
        | some shifted =>
          let firstLabel := if freqCount = 1 then "Latest " ++ freqName
            else "Latest " ++ toString freqCount ++ " " ++ freqName ++ "s"
          .ok (QR.mk lastDf firstLabel :: labelOthers freqCount freqName 1 shifted.reverse)

/-- Stage of `timesplit` after a successful regex match on the uppercased
frequency string `f`. -/
def timesplitParsed (q : QR α) (f : String) (digits : List Char) (unit : Char)
    (minPoints : Int) : Except PyErr (List (QR α)) :=
  match q.rows with
  | [] => .ok []
  | r0 :: _ =>
    let sS := f = "M" ∨ f = "Q" ∨ f = "A"
    let f2 := if sS then f ++ "S" else f
    let off := toOffset (freqCountOf digits) unit (decide sS)
    let last := ((q.rows.getLast?).getD r0).1
    let s0 := firstStartTime r0.1 f2 off
    match splitLoop off q.rows last s0 with
    | none => .error .diverge
    | some parts => postSplit parts minPoints (freqCountOf digits) (freqFull unit)

/-- Body of `timesplit` after `freq = freq.upper()`. -/
def timesplitU (q : QR α) (f : String) (minPoints : Int) : Except PyErr (List (QR α)) :=
  match q.rows with
  | [] => .ok []
  | _ :: _ =>
    match matchFreq f with
    | none => .error .valueError
    | some (digits, unit) => timesplitParsed q f digits unit minPoints

/-- Models `QueryResults.timesplit(freq, use_average=False, min_points)`. -/
def timesplit (q : QR α) (freq : String) (minPoints : Int) : Except PyErr (List (QR α)) :=
  timesplitU q (pyUpper freq) minPoints

/-! ### Coverage of the slicing loop -/

/-- Sorted rows split at a pivot: the suffix filter decomposes a range
filter. -/
theorem sorted_filter_split (rows : List (Int × α)) (s c : Int) (hsc : s ≤ c)
    (hsort : List.Sorted (fun a b : Int × α => a.1 ≤ b.1) rows) :
    rows.filter (fun r => decide (s ≤ r.1)) =
      rows.filter (fun r => decide (s ≤ r.1 ∧ r.1 ≤ c - 1)) ++
      rows.filter (fun r => decide (c ≤ r.1)) := by
  induction rows with
  | nil => rfl
  | cons r rs ih =>
    rw [List.sorted_cons] at hsort
    obtain ⟨hr, hsorted⟩ := hsort
    simp only [List.filter_cons]
    by_cases h1 : c ≤ r.1
    · have hall : ∀ x ∈ rs, c ≤ x.1 := fun x hx => le_trans h1 (hr x hx)
      rw [if_pos (by simp only [decide_eq_true_eq]; omega),
        if_neg (by simp only [decide_eq_true_eq]; omega),
        if_pos (by simpa using h1)]
      have h2 : rs.filter (fun x => decide (s ≤ x.1 ∧ x.1 ≤ c - 1)) = [] := by
        rw [List.filter_eq_nil_iff]
        intro x hx
        have := hall x hx
        simp only [decide_eq_true_eq]
        omega
      rw [h2, List.nil_append, ih hsorted, h2, List.nil_append]
    · by_cases h3 : s ≤ r.1
      · rw [if_pos (by simpa using h3), if_pos (by simp only [decide_eq_true_eq]; omega),
          if_neg (by simpa using h1), List.cons_append]
        congr 1
        exact ih hsorted
      · rw [if_neg (by simpa using h3), if_neg (by simp only [decide_eq_true_eq]; omega),
          if_neg (by simpa using h1)]
        exact ih hsorted

/-- The partitions produced by the slicing loop tile the rows from `s` on:
their concatenation is exactly the rows with timestamp at least `s`. -/
theorem splitLoop_join {off : POffset} {rows : List (Int × α)} {last s : Int}
    {parts : List (List (Int × α))}
    (h : splitLoop off rows last s = some parts)
    (hlast : ∀ r ∈ rows, r.1 ≤ last)
    (hsort : List.Sorted (fun a b : Int × α => a.1 ≤ b.1) rows) :
    parts.flatten = rows.filter (fun r => decide (s ≤ r.1)) := by
  rw [splitLoop] at h
  split_ifs at h with hle hlt
  · cases hrec : splitLoop off rows last (applyOffset off s) with
    | none =>
      rw [hrec] at h
      cases h
    | some parts2 =>
      rw [hrec] at h
      have hparts : parts = sliceRows rows s (applyOffset off s - 1) :: parts2 :=
        (Option.some.inj h).symm
      subst hparts
      have ih := splitLoop_join hrec hlast hsort
      rw [List.flatten_cons, ih, sliceRows]
      exact (sorted_filter_split rows s (applyOffset off s) (le_of_lt hlt) hsort).symm
  · have hnil : rows.filter (fun r => decide (s ≤ r.1)) = [] := by
      rw [List.filter_eq_nil_iff]
      intro r hr
      have := hlast r hr
      simp only [decide_eq_true_eq]
      omega
    have hp : parts = [] := (Option.some.inj h).symm
    subst hp
    rw [hnil]
    rfl
termination_by (last + 1 - s).toNat
decreasing_by omega

/-- A completed slicing loop started within range produces at least one
partition. -/
theorem splitLoop_ne_nil {off : POffset} {rows : List (Int × α)} {last s : Int}
    {parts : List (List (Int × α))}
    (h : splitLoop off rows last s = some parts) (hle : s ≤ last) : parts ≠ [] := by
  rw [splitLoop] at h
  rw [dif_pos hle] at h
  split_ifs at h
  · cases hrec : splitLoop off rows last (applyOffset off s) with
    | none => rw [hrec] at h; cases h
    | some parts2 =>
      rw [hrec] at h
      rw [← Option.some.inj h]
      simp

theorem tshift_tshift (rows : List (Int × α)) (a b : Int) :
    tshiftRows (tshiftRows rows a) b = tshiftRows rows (a + b) := by
  simp only [tshiftRows, List.map_map]
  apply List.map_congr_left
  intro r _
  simp only [Function.comp_apply]
  congr 1
  ring

theorem tshift_zero (rows : List (Int × α)) : tshiftRows rows 0 = rows := by
  simp [tshiftRows]

/-- Characterization of the `tshift` loop on success: each dataframe is
shifted by some delta, and unshifting recovers it. -/
theorem tshiftAll_spec {ls : Int} {dfs shifted : List (List (Int × α))}
    (h : tshiftAll ls dfs = some shifted) :
    ∃ deltas : List Int, deltas.length = dfs.length ∧
      shifted = List.zipWith tshiftRows dfs deltas ∧
      dfs = List.zipWith (fun df δ => tshiftRows df (-δ)) shifted deltas := by
  induction dfs generalizing shifted with
  | nil =>
    have hp : shifted = [] := (Option.some.inj h).symm
    subst hp
    exact ⟨[], rfl, rfl, rfl⟩
  | cons df dfs ih =>
    rw [tshiftAll] at h
    cases hh : df.head? with
    | none =>
      rw [hh] at h
      cases h
    | some r =>
      rw [hh] at h
      cases hrec : tshiftAll ls dfs with
      | none =>
        rw [hrec] at h
        cases h
      | some rest =>
        rw [hrec] at h
        have hp : shifted = tshiftRows df (ls - r.1) :: rest := (Option.some.inj h).symm
        subst hp
        obtain ⟨deltas, hlen, hsh, hun⟩ := ih hrec
        refine ⟨(ls - r.1) :: deltas, by simp [hlen], ?_, ?_⟩
        · rw [List.zipWith_cons_cons, ← hsh]
        · rw [List.zipWith_cons_cons, tshift_tshift,
            (by ring : ls - r.1 + -(ls - r.1) = 0), tshift_zero]
          nth_rewrite 1 [hun]
          rfl

/-- Partitions of the result list in chronological (oldest-first) order:
`timesplit` returns the most recent partition first, then the older ones
from most recent to oldest. -/
def chrono : List β → List β
  | [] => []
  | x :: xs => xs.reverse ++ [x]

theorem labelOthers_length (fc : Int) (fn : String) (i : Int)
    (dfs : List (List (Int × α))) : (labelOthers fc fn i dfs).length = dfs.length := by
  induction dfs generalizing i with
  | nil => rfl
  | cons df dfs ih => simp [labelOthers, ih]

theorem zipWith_labelOthers (fc : Int) (fn : String) (i : Int)
    (dfs : List (List (Int × α))) (l2 : List Int) :
    List.zipWith (fun q δ => tshiftRows q.rows (-δ)) (labelOthers fc fn i dfs) l2 =
      List.zipWith (fun df δ => tshiftRows df (-δ)) dfs l2 := by
  induction dfs generalizing i l2 with
  | nil => rfl
  | cons df dfs ih =>
    cases l2 with
    | nil => rfl
    | cons δ l2 => simp [labelOthers, ih]

theorem zipWith_rev (f : β → γ → δ) (l1 : List β) (l2 : List γ)
    (h : l1.length = l2.length) :
    List.zipWith f l1.reverse l2.reverse = (List.zipWith f l1 l2).reverse := by
  induction l1 generalizing l2 with
  | nil => rfl
  | cons b l1 ih =>
    cases l2 with
    | nil => cases h
    | cons c l2 =>
      simp only [List.reverse_cons, List.zipWith_cons_cons]
      rw [List.zipWith_append _ _ _ _ _ (by simp at h ⊢; omega), ih l2 (by simpa using h)]
      simp

/-- On success, `postSplit` returns the kept partitions most-recent-first,
each shifted by some delta (0 for the most recent); unshifting and reordering
chronologically recovers the kept partitions. -/
theorem postSplit_ok {parts : List (List (Int × α))} {minPoints freqCount : Int}
    {fn : String} {res : List (QR α)} (hne : parts ≠ [])
    (hok : postSplit parts minPoints freqCount fn = .ok res) :
    ∃ shifts : List Int, shifts.length = res.length ∧ shifts.head?.getD 0 = 0 ∧
      chrono (List.zipWith (fun q δ => tshiftRows q.rows (-δ)) res shifts) =
        (if ((parts.getLast hne).length : Int) < minPoints then parts.dropLast
         else parts) := by
  unfold postSplit at hok
  rw [List.getLast?_eq_getLast parts hne] at hok
  simp only at hok
  generalize hG : (if ((parts.getLast hne).length : Int) < minPoints then parts.dropLast
    else parts) = P2 at hok ⊢
  cases h2 : P2.getLast? with
  | none =>
    rw [h2] at hok
    simp only [Except.ok.injEq] at hok
    refine ⟨[], by simp [← hok], by simp, ?_⟩
    rw [← hok]
    simp only [List.zipWith_nil_right]
    rw [List.getLast?_eq_none_iff] at h2
    simp [chrono, h2]
  | some lastDf =>
    rw [h2] at hok
    simp only at hok
    cases hh : lastDf.head? with
    | none =>
      rw [hh] at hok
      simp only at hok
      cases hok
    | some rl =>
      rw [hh] at hok
      simp only at hok
      cases hta : tshiftAll rl.1 P2.dropLast with
      | none =>
        rw [hta] at hok
        simp only at hok
        cases hok
      | some shifted =>
        rw [hta] at hok
        simp only [Except.ok.injEq] at hok
        obtain ⟨deltas, hlen, hsh, hun⟩ := tshiftAll_spec hta
        have hshlen : shifted.length = P2.dropLast.length := by
          rw [hsh, List.length_zipWith]
          omega
        refine ⟨0 :: deltas.reverse, ?_, by simp, ?_⟩
        · rw [← hok]
          simp only [List.length_cons, labelOthers_length, List.length_reverse]
          omega
        · rw [← hok]
          simp only [List.zipWith_cons_cons]
          rw [neg_zero, tshift_zero]
          rw [zipWith_labelOthers]
          rw [zipWith_rev _ _ _ (by omega)]
          rw [← hun]
          simp only [chrono, List.reverse_reverse]
          have hlast2 : P2 ≠ [] := by
            intro hnil
            rw [hnil] at h2
            cases h2
          have hld : lastDf = P2.getLast hlast2 := by
            have hg := List.getLast?_eq_getLast P2 hlast2
            rw [h2] at hg
            exact Option.some.inj hg
          rw [hld]
          exact List.dropLast_concat_getLast hlast2

/-- A parsed count of at least 1 yields a positive offset. -/
theorem offPos_toOffset {count : Int} (unit : Char) (sS : Bool) (hc : 1 ≤ count) :
    offPos (toOffset count unit sS) := by
  unfold toOffset
  have hh : (1 : Int) ≤ count * nsPerHour := by
    have : (1 : Int) * nsPerHour ≤ count * nsPerHour := by
      apply mul_le_mul_of_nonneg_right hc
      simp [nsPerHour]
    simp only [nsPerHour] at *
    omega
  have hd : (1 : Int) ≤ count * nsPerDay := by
    have : (1 : Int) * nsPerDay ≤ count * nsPerDay := by
      apply mul_le_mul_of_nonneg_right hc
      simp [nsPerDay]
    simp only [nsPerDay] at *
    omega
  split <;> (try split) <;> simp only [offPos] <;> omega

theorem truncMinSec_le (t : Int) : truncMinSec t ≤ t := by
  simp only [truncMinSec, nsPerHour]
  omega

theorem replaceHourZero_le (t : Int) : replaceHourZero t ≤ t := by
  simp only [replaceHourZero, nsPerDay, nsPerHour]
  omega

/-- The aligned start never exceeds the (truncated) first timestamp. -/
theorem firstStartTime_le {off : POffset} (hpos : offPos off) (t0 : Int) (fs : String) :
    firstStartTime t0 fs off ≤ t0 := by
  simp only [firstStartTime]
  have h1 := truncMinSec_le t0
  have h2 := replaceHourZero_le (truncMinSec t0)
  split_ifs with ha hb hb
  · exact le_trans (applyNeg_le hpos) (by omega)
  · omega
  · exact le_trans (applyNeg_le hpos) (by omega)
  · omega

/-- The aligned start sits on an offset boundary: adding the zero multiple of
the offset leaves it unchanged (the boundary test of `timesplit`). -/
theorem firstStartTime_boundary {off : POffset} (hpos : offPos off) (t0 : Int)
    (fs : String) :
    applyOffset (zeroOff off) (firstStartTime t0 fs off) = firstStartTime t0 fs off := by
  simp only [firstStartTime]
  split_ifs with ha hb hb
  · exact zeroOff_fix_stepback off hpos _
  · push_neg at hb
    exact hb.symm
  · exact zeroOff_fix_stepback off hpos _
  · push_neg at hb
    exact hb.symm

theorem sorted_le_getLast {l : List (Int × α)}
    (hs : List.Sorted (fun a b : Int × α => a.1 ≤ b.1) l) (hne : l ≠ []) :
    ∀ r ∈ l, r.1 ≤ (l.getLast hne).1 := by
  induction l with
  | nil => cases hne rfl
  | cons a l ih =>
    rw [List.sorted_cons] at hs
    intro r hr
    cases l with
    | nil =>
      simp only [List.mem_singleton] at hr
      subst hr
      simp [List.getLast]
    | cons b l2 =>
      rw [List.getLast_cons (by simp)]
      rcases List.mem_cons.mp hr with rfl | hr2
      · exact le_trans (hs.1 _ (List.getLast_mem _)) (le_refl _)
      · exact ih hs.2 (by simp) r hr2

/-- Claim C2: for every non-empty sorted table and parsed frequency with
count at least 1, undoing each returned partition's time shift and
concatenating chronologically reproduces exactly the input rows — no row
duplicated, no row dropped — except for the rows of a trailing partition
dropped for having fewer than `min_points` rows. -/
theorem timesplit_coverage {α : Type} (q : QR α) (freq : String) (minPoints : Int)
    (res : List (QR α)) (digits : List Char) (unit : Char)
    (hsort : List.Sorted (fun a b : Int × α => a.1 ≤ b.1) q.rows)
    (hne : q.rows ≠ [])
    (hm : matchFreq (pyUpper freq) = some (digits, unit))
    (hc : 1 ≤ freqCountOf digits)
    (hok : timesplit q freq minPoints = .ok res) :
    ∃ (shifts : List Int) (dropped : List (Int × α)),
      shifts.length = res.length ∧ shifts.head?.getD 0 = 0 ∧
      (chrono (List.zipWith (fun p δ => tshiftRows p.rows (-δ)) res shifts)).flatten
          ++ dropped = q.rows ∧
      (dropped = [] ∨ (dropped.length : Int) < minPoints) := by
  obtain ⟨r0, rest, hrows⟩ : ∃ r0 rest, q.rows = r0 :: rest := by
    cases hq : q.rows with
    | nil => exact absurd hq hne
    | cons a l => exact ⟨a, l, rfl⟩
  unfold timesplit timesplitU at hok
  rw [hrows, hm] at hok
  simp only at hok
  unfold timesplitParsed at hok
  rw [hrows] at hok
  simp only at hok
  set f := pyUpper freq with hf
  set sS := (f = "M" ∨ f = "Q" ∨ f = "A") with hsS
  set off := toOffset (freqCountOf digits) unit (decide sS) with hoff
  set s0 := firstStartTime r0.1 (if sS then f ++ "S" else f) off with hs0
  set last := (((r0 :: rest).getLast?).getD r0).1 with hlast
  have hpos : offPos off := offPos_toOffset unit (decide sS) hc
  have hs0le : s0 ≤ r0.1 := firstStartTime_le hpos r0.1 _
  have hsort2 : List.Sorted (fun a b : Int × α => a.1 ≤ b.1) (r0 :: rest) := hrows ▸ hsort
  have hlasteq : last = ((r0 :: rest).getLast (by simp)).1 := by
    rw [hlast, List.getLast?_eq_getLast (r0 :: rest) (by simp)]
    rfl
  have hall2 : ∀ r ∈ r0 :: rest, r.1 ≤ last := by
    intro r hr
    rw [hlasteq]
    exact sorted_le_getLast hsort2 (by simp) r hr
  have hall1 : ∀ r ∈ r0 :: rest, s0 ≤ r.1 := by
    intro r hr
    rcases List.mem_cons.mp hr with rfl | hr2
    · exact hs0le
    · rw [List.sorted_cons] at hsort2
      exact le_trans hs0le (hsort2.1 r hr2)
  cases hsplit : splitLoop off (r0 :: rest) last s0 with
  | none =>
    rw [hsplit] at hok
    cases hok
  | some parts =>
    rw [hsplit] at hok
    simp only at hok
    have hnonnil : parts ≠ [] :=
      splitLoop_ne_nil hsplit (le_trans hs0le (hall2 r0 (by simp)))
    have hjoin : parts.flatten = r0 :: rest := by
      rw [splitLoop_join hsplit hall2 hsort2]
      rw [List.filter_eq_self]
      intro r hr
      simpa using hall1 r hr
    obtain ⟨shifts, hlen, hhead, hchrono⟩ := postSplit_ok hnonnil hok
    by_cases hdrop : ((parts.getLast hnonnil).length : Int) < minPoints
    · rw [if_pos hdrop] at hchrono
      refine ⟨shifts, parts.getLast hnonnil, hlen, hhead, ?_, Or.inr hdrop⟩
      rw [hchrono, hrows, ← hjoin]
      conv_rhs => rw [← List.dropLast_concat_getLast hnonnil]
      rw [List.flatten_append]
      simp
    · rw [if_neg hdrop] at hchrono
      refine ⟨shifts, [], hlen, hhead, ?_, Or.inl rfl⟩
      rw [hchrono, hrows, ← hjoin, List.append_nil]

theorem chrono_length (l : List β) : (chrono l).length = l.length := by
  cases l with
  | nil => rfl
  | cons x xs => simp [chrono]

/-- The partition list built by the `while` loop of `timesplit`, before the
undersized-trailing-partition drop (`split_dataframes` at line 268). -/
def walkParts (q : QR α) (f : String) (digits : List Char) (unit : Char) :
    Option (List (List (Int × α))) :=
  match q.rows with
  | [] => none
  | r0 :: _ =>
    let sS := f = "M" ∨ f = "Q" ∨ f = "A"
    let off := toOffset (freqCountOf digits) unit (decide sS)
    splitLoop off q.rows ((q.rows.getLast?).getD r0).1
      (firstStartTime r0.1 (if sS then f ++ "S" else f) off)

/-- `timesplit` on a non-empty table with a parsed frequency is the
post-processing of the walk's partitions. -/
theorem timesplit_eq_postSplit {α : Type} (q : QR α) (freq : String) (minPoints : Int)
    {digits : List Char} {unit : Char} {r0 : Int × α} {rest : List (Int × α)}
    (hrows : q.rows = r0 :: rest)
    (hm : matchFreq (pyUpper freq) = some (digits, unit)) :
    timesplit q freq minPoints =
      (match walkParts q (pyUpper freq) digits unit with
       | none => .error .diverge
       | some parts => postSplit parts minPoints (freqCountOf digits) (freqFull unit)) := by
  unfold timesplit timesplitU timesplitParsed walkParts
  rw [hrows, hm]

/-- Claim C8: when the final partition produced by the splitting walk has
fewer than `min_points` rows, `timesplit` drops it entirely — a single
partition gives the empty result, and otherwise the returned partitions
are, after unshifting, exactly the walk's partitions without the last. -/
theorem timesplit_drop {α : Type} (q : QR α) (freq : String) (minPoints : Int)
    (digits : List Char) (unit : Char) (parts : List (List (Int × α)))
    (hpne : parts ≠ [])
    (hm : matchFreq (pyUpper freq) = some (digits, unit))
    (hw : walkParts q (pyUpper freq) digits unit = some parts)
    (hdrop : ((parts.getLast hpne).length : Int) < minPoints) :
    (parts.length = 1 → timesplit q freq minPoints = .ok []) ∧
    (∀ res, timesplit q freq minPoints = .ok res →
      res.length = parts.length - 1 ∧
      ∃ shifts : List Int, shifts.length = res.length ∧ shifts.head?.getD 0 = 0 ∧
        chrono (List.zipWith (fun p δ => tshiftRows p.rows (-δ)) res shifts) =
          parts.dropLast) := by
  obtain ⟨r0, rest, hrows⟩ : ∃ r0 rest, q.rows = r0 :: rest := by
    unfold walkParts at hw
    cases hq : q.rows with
    | nil => rw [hq] at hw; cases hw
    | cons a l => exact ⟨a, l, rfl⟩
  have heq := timesplit_eq_postSplit q freq minPoints hrows hm
  rw [hw] at heq
  simp only at heq
  constructor
  · intro h1
    rw [heq]
    unfold postSplit
    rw [List.getLast?_eq_getLast parts hpne]
    simp only
    rw [if_pos hdrop]
    have hdl : parts.dropLast = [] := by
      cases parts with
      | nil => rfl
      | cons a l =>
        cases l with
        | nil => rfl
        | cons b l2 => simp at h1
    rw [hdl]
    rfl
  · intro res hres
    rw [heq] at hres
    obtain ⟨shifts, hlen, hhead, hchrono⟩ := postSplit_ok hpne hres
    rw [if_pos hdrop] at hchrono
    have hreslen : res.length = parts.length - 1 := by
      have h3 : (chrono (List.zipWith (fun p δ => tshiftRows p.rows (-δ)) res shifts)).length
          = parts.dropLast.length := by rw [hchrono]
      rw [chrono_length, List.length_zipWith, List.length_dropLast] at h3
      omega
    exact ⟨hreslen, shifts, hlen, hhead, hchrono⟩

/-- Claim C7 (amended): on a non-empty result set, a frequency string that
does not parse as optional digits plus a unit among H, D, W, M, Q, A makes
`timesplit` raise `ValueError` and return nothing; an empty result set
returns `[]` before the frequency is ever validated. -/
theorem timesplit_invalid_freq {α : Type} (q : QR α) (freq : String) (minPoints : Int)
    (hne : q.rows ≠ [])
    (hm : matchFreq (pyUpper freq) = none) :
    timesplit q freq minPoints = .error .valueError := by
  obtain ⟨r0, rest, hrows⟩ : ∃ r0 rest, q.rows = r0 :: rest := by
    cases hq : q.rows with
    | nil => exact absurd hq hne
    | cons a l => exact ⟨a, l, rfl⟩
  unfold timesplit timesplitU
  rw [hrows, hm]

/-- Claim C10: `timesplit` uppercases `freq` before parsing it, so every
frequency string behaves exactly like its uppercased form (`'d'` behaves
like `'D'`, `'2w'` like `'2W'`, ...). -/
theorem timesplit_upper (q : QR α) (freq : String) (minPoints : Int) :
    timesplit q freq minPoints = timesplit q (pyUpper freq) minPoints := by
  unfold timesplit
  rw [pyUpper_idem]

/-- Fuel-indexed evaluator for the slicing loop, to compute concrete runs. -/
def splitLoopF (fuel : Nat) (off : POffset) (rows : List (Int × α)) (last s : Int) :
    Option (List (List (Int × α))) :=
  match fuel with
  | 0 => if s ≤ last then none else some []
  | Nat.succ fuel =>
    if s ≤ last then
      if s < applyOffset off s then
        match splitLoopF fuel off rows last (applyOffset off s) with
        | none => none
        | some parts => some (sliceRows rows s (applyOffset off s - 1) :: parts)
      else none
    else some []

theorem splitLoopF_sound {off : POffset} {rows : List (Int × α)}
    {last s : Int} {res : List (List (Int × α))} (fuel : Nat)
    (h : splitLoopF fuel off rows last s = some res) :
    splitLoop off rows last s = some res := by
  induction fuel generalizing s res with
  | zero =>
    unfold splitLoopF at h
    split_ifs at h with h1
    rw [splitLoop, dif_neg h1]
    exact h
  | succ fuel ih =>
    unfold splitLoopF at h
    split_ifs at h with h1 h2
    · cases hrec : splitLoopF fuel off rows last (applyOffset off s) with
      | none => rw [hrec] at h; cases h
      | some parts =>
        rw [hrec] at h
        rw [splitLoop, dif_pos h1, dif_pos h2, ih hrec]
        exact h
    · rw [splitLoop, dif_neg h1]
      exact h

/-- The boundary example of the spec: a table with rows at
2016-03-02 14:00 and 15:00. -/
def exRows : List (Int × Nat) :=
  [(daysFromCivil 2016 3 2 * nsPerDay + 14 * nsPerHour, 1),
   (daysFromCivil 2016 3 2 * nsPerDay + 15 * nsPerHour, 2)]

def exTable : QR Nat := ⟨exRows, "m"⟩

def exT0 : Int := daysFromCivil 2016 3 2 * nsPerDay + 14 * nsPerHour

theorem exWalk : walkParts exTable "D" [] 'D' = some [exRows] := by
  unfold walkParts
  exact splitLoopF_sound 3 rfl

/-- Claim C3 (amended): the aligned start is the first timestamp with
minutes and seconds cleared (the nanosecond field survives), the hour also
cleared exactly when the whole uppercased frequency string differs from
`"H"` (so `"2H"` also clears the hour), stepped back one period when not
already on an offset boundary; the spec's example table starting
2016-03-02 14:00 split with `"D"` and `min_points = 2` yields one partition
starting 2016-03-02 00:00. -/
theorem timesplit_aligned_start (t0 : Int) (fs : String) (off : POffset)
    (hpos : offPos off) :
    (firstStartTime t0 fs off ≤
        (if fs ≠ "H" then replaceHourZero (truncMinSec t0) else truncMinSec t0)) ∧
    ((if fs ≠ "H" then replaceHourZero (truncMinSec t0) else truncMinSec t0) ≤ t0) ∧
    applyOffset (zeroOff off) (firstStartTime t0 fs off) = firstStartTime t0 fs off ∧
    truncMinSec t0 % nsPerHour = t0 % 1000 ∧
    replaceHourZero (truncMinSec t0) % nsPerDay = t0 % 1000 ∧
    timesplit exTable "D" 2 = .ok [⟨exRows, "Latest day"⟩] ∧
    firstStartTime exT0 "D" (toOffset 1 'D' false) = daysFromCivil 2016 3 2 * nsPerDay := by
  refine ⟨?_, ?_, firstStartTime_boundary hpos t0 fs, ?_, ?_, ?_, by decide⟩
  · simp only [firstStartTime]
    split_ifs <;> first | exact applyNeg_le hpos | exact le_refl _
  · have h1 := truncMinSec_le t0
    have h2 := replaceHourZero_le (truncMinSec t0)
    split_ifs with h
    · omega
    · exact h1
  · simp only [truncMinSec, nsPerHour]
    omega
  · simp only [replaceHourZero, truncMinSec, nsPerHour, nsPerDay]
    omega
  · have hm : matchFreq (pyUpper "D") = some ([], 'D') := rfl
    have heq := timesplit_eq_postSplit exTable "D" 2 rfl hm
    have hpu : pyUpper "D" = "D" := rfl
    rw [hpu] at heq
    rw [heq, exWalk]
    rfl

theorem timesplit_aligned_start_cex :
    firstStartTime exT0 "2H" (toOffset 2 'H' false) = daysFromCivil 2016 3 2 * nsPerDay ∧
    truncMinSec exT0 = exT0 ∧
    daysFromCivil 2016 3 2 * nsPerDay ≠ exT0 :=
  ⟨rfl, rfl, by decide⟩

theorem timesplit_aligned_start_witness :
    offPos (toOffset 1 'D' false) ∧
    ((firstStartTime exT0 "D" (toOffset 1 'D' false) ≤
        (if "D" ≠ "H" then replaceHourZero (truncMinSec exT0) else truncMinSec exT0)) ∧
    ((if "D" ≠ "H" then replaceHourZero (truncMinSec exT0) else truncMinSec exT0) ≤ exT0) ∧
    applyOffset (zeroOff (toOffset 1 'D' false))
        (firstStartTime exT0 "D" (toOffset 1 'D' false)) =
      firstStartTime exT0 "D" (toOffset 1 'D' false) ∧
    truncMinSec exT0 % nsPerHour = exT0 % 1000 ∧
    replaceHourZero (truncMinSec exT0) % nsPerDay = exT0 % 1000 ∧
    timesplit exTable "D" 2 = .ok [⟨exRows, "Latest day"⟩] ∧
    firstStartTime exT0 "D" (toOffset 1 'D' false) = daysFromCivil 2016 3 2 * nsPerDay) :=
  ⟨by decide, timesplit_aligned_start exT0 "D" (toOffset 1 'D' false) (by decide)⟩

theorem timesplit_invalid_freq_cex :
    matchFreq (pyUpper "X") = none ∧
    timesplit (⟨[], "m"⟩ : QR Nat) "X" 2 = .ok [] :=
  ⟨rfl, rfl⟩

theorem timesplit_invalid_freq_witness :
    ((⟨[((0 : Int), (0 : Nat))], "m"⟩ : QR Nat).rows ≠ [] ∧
      matchFreq (pyUpper "5X") = none) ∧
    timesplit (⟨[((0 : Int), (0 : Nat))], "m"⟩ : QR Nat) "5X" 2 = .error .valueError :=
  ⟨⟨by decide, rfl⟩, timesplit_invalid_freq _ "5X" 2 (by decide) rfl⟩

theorem timesplit_drop_witness :
    (([[((0 : Int), (1 : Nat))]] : List (List (Int × Nat))) ≠ [] ∧
      matchFreq (pyUpper "D") = some ([], 'D') ∧
      walkParts (⟨[((0 : Int), (1 : Nat))], "m"⟩ : QR Nat) "D" [] 'D' =
        some [[(0, 1)]] ∧
      ((([((0 : Int), (1 : Nat))] : List (Int × Nat)).length : Int) < 2) ∧
    ((([[((0 : Int), (1 : Nat))]] : List (List (Int × Nat))).length = 1 →
      timesplit (⟨[(0, 1)], "m"⟩ : QR Nat) "D" 2 = .ok []) ∧
    (∀ res, timesplit (⟨[(0, 1)], "m"⟩ : QR Nat) "D" 2 = .ok res →
      res.length = ([[((0 : Int), (1 : Nat))]] : List (List (Int × Nat))).length - 1 ∧
      ∃ shifts : List Int, shifts.length = res.length ∧ shifts.head?.getD 0 = 0 ∧
        chrono (List.zipWith (fun p δ => tshiftRows p.rows (-δ)) res shifts) =
          ([[((0 : Int), (1 : Nat))]] : List (List (Int × Nat))).dropLast))) := by
  have hw : walkParts (⟨[((0 : Int), (1 : Nat))], "m"⟩ : QR Nat) "D" [] 'D' =
      some [[(0, 1)]] := by
    unfold walkParts
    exact splitLoopF_sound 2 rfl
  exact ⟨by decide, rfl, hw, by decide,
    timesplit_drop _ "D" 2 [] 'D' [[(0, 1)]] (by decide) rfl hw (by decide)⟩

theorem timesplit_coverage_witness :
    (List.Sorted (fun a b : Int × Nat => a.1 ≤ b.1) [(0, 1), (nsPerDay, 2)] ∧
      ([((0 : Int), (1 : Nat)), (nsPerDay, 2)] : List (Int × Nat)) ≠ [] ∧
      matchFreq (pyUpper "D") = some ([], 'D') ∧
      1 ≤ freqCountOf [] ∧
      timesplit (⟨[(0, 1), (nsPerDay, 2)], "m"⟩ : QR Nat) "D" 1 =
        .ok [⟨[(nsPerDay, 2)], "Latest day"⟩, ⟨[(nsPerDay, 1)], "1 day ago"⟩]) ∧
    ∃ (shifts : List Int) (dropped : List (Int × Nat)),
      shifts.length =
        ([⟨[(nsPerDay, 2)], "Latest day"⟩,
          ⟨[(nsPerDay, 1)], "1 day ago"⟩] : List (QR Nat)).length ∧
      shifts.head?.getD 0 = 0 ∧
      (chrono (List.zipWith (fun p δ => tshiftRows p.rows (-δ))
          ([⟨[(nsPerDay, 2)], "Latest day"⟩,
            ⟨[(nsPerDay, 1)], "1 day ago"⟩] : List (QR Nat)) shifts)).flatten
          ++ dropped = [(0, 1), (nsPerDay, 2)] ∧
      (dropped = [] ∨ (dropped.length : Int) < 1) := by
  have hsort : List.Sorted (fun a b : Int × Nat => a.1 ≤ b.1) [(0, 1), (nsPerDay, 2)] := by
    simp [List.sorted_cons, nsPerDay]
  have hok : timesplit (⟨[(0, 1), (nsPerDay, 2)], "m"⟩ : QR Nat) "D" 1 =
      .ok [⟨[(nsPerDay, 2)], "Latest day"⟩, ⟨[(nsPerDay, 1)], "1 day ago"⟩] := by
    have hm : matchFreq (pyUpper "D") = some ([], 'D') := rfl
    have heq := timesplit_eq_postSplit (⟨[(0, 1), (nsPerDay, 2)], "m"⟩ : QR Nat) "D" 1 rfl hm
    have hpu : pyUpper "D" = "D" := rfl
    rw [hpu] at heq
    have hw : walkParts (⟨[(0, 1), (nsPerDay, 2)], "m"⟩ : QR Nat) "D" [] 'D' =
        some [[(0, 1)], [(nsPerDay, 2)]] := by
      unfold walkParts
      exact splitLoopF_sound 3 rfl
    rw [heq, hw]
    rfl
  exact ⟨⟨hsort, by decide, rfl, by decide, hok⟩,
    timesplit_coverage _ "D" 1 _ [] 'D' hsort (by decide) rfl (by decide) hok⟩

/-! ### The dataframe builder and header projector (`_dataframe.py`) -/

/-- Python string comparison: lexicographic on code points. -/
def charListLt : List Char → List Char → Bool
  | [], [] => false
  | [], _ :: _ => true
  | _ :: _, [] => false
  | a :: as, b :: bs =>
    if a.toNat < b.toNat then true
    else if b.toNat < a.toNat then false
    else charListLt as bs

def strLt (a b : String) : Bool := charListLt a.data b.data

/-- Python tuple comparison on string tuples: the key order used by
`sort_index(axis=1)` on a column `MultiIndex` of strings. -/
def lexLe : List String → List String → Bool
  | [], _ => true
  | _ :: _, [] => false
  | a :: as, b :: bs =>
    if strLt a b then true
    else if strLt b a then false
    else lexLe as bs

theorem charListLt_trans : ∀ (a b c : List Char),
    charListLt a b = true → charListLt b c = true → charListLt a c = true := by
  intro a
  induction a with
  | nil =>
    intro b c hab hbc
    cases b with
    | nil => cases hab
    | cons y ys =>
      cases c with
      | nil => cases hbc
      | cons z zs => rfl
  | cons x xs ih =>
    intro b c hab hbc
    cases b with
    | nil => cases hab
    | cons y ys =>
      cases c with
      | nil => cases hbc
      | cons z zs =>
        simp only [charListLt] at hab hbc ⊢
        split_ifs at hab hbc ⊢ <;>
          first | rfl | omega | exact ih ys zs hab hbc

theorem charListLt_total_eq : ∀ (a b : List Char),
    charListLt a b = false → charListLt b a = false → a = b := by
  intro a
  induction a with
  | nil =>
    intro b hab _
    cases b with
    | nil => rfl
    | cons y ys => cases hab
  | cons x xs ih =>
    intro b hab hba
    cases b with
    | nil => cases hba
    | cons y ys =>
      simp only [charListLt] at hab hba
      split_ifs at hab hba
      have hxy : x = y := by
        rw [← Char.ofNat_toNat x, ← Char.ofNat_toNat y]
        congr 1
        omega
      rw [hxy, ih ys hab hba]

theorem strLt_trans {a b c : String} (h1 : strLt a b = true) (h2 : strLt b c = true) :
    strLt a c = true := charListLt_trans a.data b.data c.data h1 h2

theorem strLt_total_eq {a b : String} (h1 : strLt a b = false) (h2 : strLt b a = false) :
    a = b := by
  cases a with
  | mk da =>
    cases b with
    | mk db =>
      have h := charListLt_total_eq da db h1 h2
      rw [h]

theorem lexLe_trans : ∀ (a b c : List String),
    lexLe a b = true → lexLe b c = true → lexLe a c = true := by
  intro a
  induction a with
  | nil => intro b c _ _; rfl
  | cons x xs ih =>
    intro b c hab hbc
    cases b with
    | nil => cases hab
    | cons y ys =>
      cases c with
      | nil => cases hbc
      | cons z zs =>
        simp only [lexLe] at hab hbc ⊢
        by_cases h1 : strLt x y = true
        · by_cases h3 : strLt y z = true
          · rw [if_pos (strLt_trans h1 h3)]
          · rw [if_neg h3] at hbc
            by_cases h4 : strLt z y = true
            · rw [if_pos h4] at hbc; cases hbc
            · have hyz : y = z := strLt_total_eq (by simpa using h3) (by simpa using h4)
              rw [if_pos (hyz ▸ h1)]
        · rw [if_neg h1] at hab
          by_cases h2 : strLt y x = true
          · rw [if_pos h2] at hab; cases hab
          · rw [if_neg h2] at hab
            have hxy : x = y := strLt_total_eq (by simpa using h1) (by simpa using h2)
            subst hxy
            by_cases h3 : strLt x z = true
            · rw [if_pos h3]
            · rw [if_neg h3] at hbc ⊢
              by_cases h4 : strLt z x = true
              · rw [if_pos h4] at hbc; cases hbc
              · rw [if_neg h4] at hbc ⊢
                exact ih ys zs hab hbc

theorem lexLe_total : ∀ (a b : List String), lexLe a b = true ∨ lexLe b a = true := by
  intro a
  induction a with
  | nil => intro b; left; rfl
  | cons x xs ih =>
    intro b
    cases b with
    | nil => right; rfl
    | cons y ys =>
      simp only [lexLe]
      by_cases h1 : strLt x y = true
      · left; rw [if_pos h1]
      · by_cases h2 : strLt y x = true
        · right; rw [if_pos h2]
        · have hxy : x = y := strLt_total_eq (by simpa using h1) (by simpa using h2)
          subst hxy
          simp only [if_neg h1]
          exact ih ys

/-- Order on columns: compare header tuples lexicographically. -/
def colLe {α : Type} (a b : List String × List α) : Prop := lexLe a.1 b.1 = true

instance {α : Type} : DecidableRel (@colLe α) := fun a b =>
  inferInstanceAs (Decidable (lexLe a.1 b.1 = true))

instance {α : Type} : IsTrans (List String × List α) colLe :=
  ⟨fun a b c => lexLe_trans a.1 b.1 c.1⟩

instance {α : Type} : IsTotal (List String × List α) colLe :=
  ⟨fun a b => lexLe_total a.1 b.1⟩

/-- Models `sort_index(axis=1)`: stable sort of the columns by header key. -/
def sortCols {α : Type} (cols : List (List String × List α)) :
    List (List String × List α) :=
  List.insertionSort colLe cols

theorem sortCols_sorted {α : Type} (cols : List (List String × List α)) :
    List.Sorted colLe (sortCols cols) :=
  List.sorted_insertionSort colLe cols

/-- Models the pandas dataframes handled by `_dataframe.py`: the column level
names (`columns.names`, `None` allowed), and per column its header tuple and
its data. -/
structure PDF (α : Type) where
  names : List (Option String)
  cols : List (List String × List α)
deriving DecidableEq, Repr

/-- The effective level list: `labels = [label] if label is not None else labels`. -/
def effLabels (label : Option String) (labels : Option (List String)) :
    Option (List String) :=
  match label with
  | some l => some [l]
  | none => labels

/-- A level's value for one column under `reindex` + `fillna('')`: the header
entry at the level named `lab`, or `''` if there is no such level. -/
def levelValues (names : List (Option String)) (header : List String) (lab : String) :
    String :=
  match names.indexOf? (some lab) with
  | some i => header.getD i ""
  | none => ""

/-- Models `extract_levels` of `_dataframe.py`. -/
def extract_levels {α : Type} (df : PDF α) (label : Option String)
    (labels : Option (List String)) : Except PyErr (PDF α) :=
  if label.isSome ∧ labels.isSome then .error .valueError
  else
    match effLabels label labels with
    | none => .ok df
    | some labs =>
      if labs.map some = df.names then .ok df
      else
        match labs with
        | [] => .error .valueError
        | [l] =>
          if 1 < df.names.count (some l) then .error .valueError
          else
            match df.names.indexOf? (some l) with
            | none => .error .keyError
            | some i =>
              .ok ⟨[some l], sortCols (df.cols.map (fun c => ([c.1.getD i ""], c.2)))⟩
        | _ =>
          if df.names.Nodup then
            .ok ⟨labs.map some,
              sortCols (df.cols.map (fun c => (labs.map (levelValues df.names c.1), c.2)))⟩
          else .error .valueError

/-- Models `', '.join(map(str, col))`. -/
def joinComma (parts : List String) : String := String.intercalate ", " parts

/-- Models `extract_single_level` of `_dataframe.py`. -/
def extract_single_level {α : Type} (df : PDF α) (label : Option String)
    (labels : Option (List String)) : Except PyErr (PDF α) :=
  match extract_levels df label labels with
  | .error e => .error e
  | .ok d =>
    if 1 < d.names.length then
      .ok ⟨[none], d.cols.map (fun c => ([joinComma c.1], c.2))⟩
    else .ok d

/-- Models one element of `time_series_iterable`: the points and the header
fields that `_get_timeseries_label` can read. -/
structure TS (α : Type) where
  points : List (Int × α)
  metricType : String
  metricKind : String
  resourceType : String
  resourceLabels : List (String × String)
  metricLabels : List (String × String)
deriving DecidableEq, Repr

/-- Modelled from the spec: the gcloud time-series header exposes a `labels`
dict merging `resource_type`, the resource labels and the metric labels, the
later entries taking precedence; `.get(key, '')` defaults to the empty
string. -/
def tsLabelGet {α : Type} (ts : TS α) (key : String) : String :=
  match ts.metricLabels.lookup key with
  | some v => v
  | none =>
    match ts.resourceLabels.lookup key with
    | some v => v
    | none => if key = "resource_type" then ts.resourceType else ""

/-- Models `_get_timeseries_label` of `_dataframe.py`. -/
def _get_timeseries_label {α : Type} (ts : TS α) (key : String) : String :=
  if key = "metric_type" then ts.metricType
  else if key = "metric_kind" then ts.metricKind
  else tsLabelGet ts key

/-- Modelled from the spec: gcloud's well-known resource labels, listed first
by `_sorted_resource_labels`. -/
def TOP_RESOURCE_LABELS : List String :=
  ["project_id", "aws_account", "region", "zone", "instance_id"]
def strLe (a b : String) : Bool := !(strLt b a)

/-- Python `sorted` on strings. -/
def sortStrs (ls : List String) : List String :=
  List.insertionSort (fun a b : String => strLe a b = true) ls

/-- Modelled from the spec: gcloud's `_sorted_resource_labels` puts the
well-known resource labels first, in their fixed order, and the remaining
labels after them, alphabetically. -/
def sortedResourceLabels (ls : List String) : List String :=
  TOP_RESOURCE_LABELS.filter (fun l => ls.contains l) ++
    sortStrs (ls.filter (fun l => !TOP_RESOURCE_LABELS.contains l))

/-- The smart default header: metric type and kind, resource type, then all
resource labels and all metric labels seen in any series. -/
def defaultLabels {α : Type} (tss : List (TS α)) : List String :=
  ["metric_type", "metric_kind", "resource_type"] ++
    sortedResourceLabels ((tss.map (fun ts => ts.resourceLabels.map Prod.fst)).flatten.dedup) ++
    sortStrs ((tss.map (fun ts => ts.metricLabels.map Prod.fst)).flatten.dedup)

/-- Models `sort_index(axis=0)` restricted to one column: its points end up in
timestamp order. -/
def sortRows {α : Type} (ps : List (Int × α)) : List (Int × α) :=
  List.insertionSort (fun a b : Int × α => a.1 ≤ b.1) ps

/-- Models `_build_dataframe` of `_dataframe.py`: one column per time series,
headed by the requested (or the default) label values; rows and columns
sorted at the end. Row alignment onto the union index is not modelled: each
column keeps its own series. -/
def _build_dataframe {α : Type} (tss : List (TS α)) (label : Option String)
    (labels : Option (List String)) : Except PyErr (PDF (Int × α)) :=
  if labels.isSome ∧ label.isSome then .error .valueError
  else if labels = some [] then .error .valueError
  else
    let keys : List String :=
      match label, labels with
      | none, none => defaultLabels tss
      | some l, none => [l]
      | _, some ls => ls
    let names : List (Option String) :=
      match label, labels with
      | none, none => (defaultLabels tss).map some
      | some _, none => [none]
      | _, some ls => ls.map some
    .ok ⟨names, sortCols (tss.map (fun ts =>
      (keys.map (_get_timeseries_label ts), sortRows ts.points)))⟩

/-- Claim C5 (amended): `extract_levels` returns the table unchanged when
the levels are unspecified or equal the current level names in order; an
empty labels list is not a no-op but a `ValueError`. -/
theorem extract_levels_copy {α : Type} (df : PDF α) (labs : List String)
    (h : labs.map some = df.names) :
    extract_levels df none none = .ok df ∧
    extract_levels df none (some labs) = .ok df := by
  constructor
  · rfl
  · simp [extract_levels, effLabels, h]

theorem extract_levels_copy_cex :
    extract_levels (⟨[some "a"], [(["x"], [1])]⟩ : PDF Nat) none (some []) =
      .error .valueError := rfl

theorem extract_levels_copy_witness :
    (["a"].map some = (⟨[some "a"], [(["x"], [1])]⟩ : PDF Nat).names) ∧
    (extract_levels (⟨[some "a"], [(["x"], [1])]⟩ : PDF Nat) none none =
        .ok ⟨[some "a"], [(["x"], [1])]⟩ ∧
      extract_levels (⟨[some "a"], [(["x"], [1])]⟩ : PDF Nat) none (some ["a"]) =
        .ok ⟨[some "a"], [(["x"], [1])]⟩) :=
  ⟨rfl, extract_levels_copy (⟨[some "a"], [(["x"], [1])]⟩ : PDF Nat) ["a"] rfl⟩

theorem extract_levels_none_none {α : Type} (df : PDF α) :
    extract_levels df none none = .ok df := rfl

theorem extract_levels_some_some {α : Type} (df : PDF α) (l : String) (ls : List String) :
    extract_levels df (some l) (some ls) = .error .valueError := rfl

theorem extract_levels_some_none {α : Type} (df : PDF α) (l : String) :
    extract_levels df (some l) none =
      (if [l].map some = df.names then .ok df
       else if 1 < df.names.count (some l) then .error .valueError
       else
         match df.names.indexOf? (some l) with
         | none => .error .keyError
         | some i =>
           .ok ⟨[some l], sortCols (df.cols.map (fun c => ([c.1.getD i ""], c.2)))⟩) := rfl

theorem extract_levels_none_some {α : Type} (df : PDF α) (ls : List String) :
    extract_levels df none (some ls) =
      (if ls.map some = df.names then .ok df
       else
         match ls with
         | [] => .error .valueError
         | [l] =>
           if 1 < df.names.count (some l) then .error .valueError
           else
             match df.names.indexOf? (some l) with
             | none => .error .keyError
             | some i =>
               .ok ⟨[some l], sortCols (df.cols.map (fun c => ([c.1.getD i ""], c.2)))⟩
         | _ =>
           if df.names.Nodup then
             .ok ⟨ls.map some,
               sortCols (df.cols.map (fun c => (ls.map (levelValues df.names c.1), c.2)))⟩
           else .error .valueError) := rfl

/-- Claim C4: projection is idempotent — whenever `extract_levels`
succeeds, applying it again with the same arguments to its output returns
that output unchanged. -/
theorem extract_levels_idem {α : Type} (df : PDF α) (label : Option String)
    (labels : Option (List String)) (out : PDF α)
    (h : extract_levels df label labels = .ok out) :
    extract_levels out label labels = .ok out := by
  cases label with
  | some l =>
    cases labels with
    | some ls => rw [extract_levels_some_some] at h; cases h
    | none =>
      rw [extract_levels_some_none] at h ⊢
      by_cases heq : [l].map some = df.names
      · rw [if_pos heq] at h
        obtain rfl := (Except.ok.inj h).symm
        rw [if_pos heq]
      · rw [if_neg heq] at h
        split_ifs at h with hc
        cases hidx : df.names.indexOf? (some l) with
        | none => rw [hidx] at h; cases h
        | some i =>
          rw [hidx] at h
          simp only at h
          obtain rfl := (Except.ok.inj h).symm
          simp
  | none =>
    cases labels with
    | none =>
      rw [extract_levels_none_none] at h
      obtain rfl := (Except.ok.inj h).symm
      exact extract_levels_none_none _
    | some ls =>
      rw [extract_levels_none_some] at h ⊢
      by_cases heq : ls.map some = df.names
      · rw [if_pos heq] at h
        obtain rfl := (Except.ok.inj h).symm
        rw [if_pos heq]
      · rw [if_neg heq] at h
        cases ls with
        | nil => simp only at h; cases h
        | cons l1 ls1 =>
          cases ls1 with
          | nil =>
            simp only at h ⊢
            split_ifs at h with hc
            cases hidx : df.names.indexOf? (some l1) with
            | none => rw [hidx] at h; cases h
            | some i =>
              rw [hidx] at h
              simp only at h
              obtain rfl := (Except.ok.inj h).symm
              simp
          | cons l2 ls2 =>
            simp only at h ⊢
            split_ifs at h with hnd
            obtain rfl := (Except.ok.inj h).symm
            simp

theorem extract_levels_idem_witness :
    extract_levels (⟨[some "a", some "b"], [(["x", "y"], [1])]⟩ : PDF Nat) none (some ["b"]) =
      .ok ⟨[some "b"], [(["y"], [1])]⟩ ∧
    extract_levels (⟨[some "b"], [(["y"], [1])]⟩ : PDF Nat) none (some ["b"]) =
      .ok ⟨[some "b"], [(["y"], [1])]⟩ :=
  ⟨rfl, extract_levels_idem (⟨[some "a", some "b"], [(["x", "y"], [1])]⟩ : PDF Nat)
    none (some ["b"]) _ rfl⟩

/-- Claim C1 (amended): `extract_single_level` flattens a multi-level
header by joining each column's header parts with `", "`, in order, and
performs no deduplication — adjacent equal flat names stay equal, with no
`#2`/`#3` suffixes — while a single-level result is returned as is. -/
theorem extract_single_level_join {α : Type} (df : PDF α) (label : Option String)
    (labels : Option (List String)) (mid out : PDF α)
    (hmid : extract_levels df label labels = .ok mid)
    (hout : extract_single_level df label labels = .ok out) :
    (1 < mid.names.length →
      out = ⟨[none], mid.cols.map (fun c => ([joinComma c.1], c.2))⟩) ∧
    (¬ 1 < mid.names.length → out = mid) := by
  unfold extract_single_level at hout
  rw [hmid] at hout
  simp only at hout
  by_cases h : 1 < mid.names.length
  · rw [if_pos h] at hout
    exact ⟨fun _ => (Except.ok.inj hout).symm, fun hn => absurd h hn⟩
  · rw [if_neg h] at hout
    exact ⟨fun hp => absurd hp h, fun _ => (Except.ok.inj hout).symm⟩

theorem extract_single_level_cex :
    extract_single_level
        (⟨[some "a", some "b"], [(["x", "y"], [1]), (["x", "y"], [2])]⟩ : PDF Nat)
        none (some ["a", "b"]) =
      .ok ⟨[none], [(["x, y"], [1]), (["x, y"], [2])]⟩ ∧
    (⟨[none], [(["x, y"], [1]), (["x, y"], [2])]⟩ : PDF Nat) ≠
      ⟨[none], [(["x, y"], [1]), (["x, y#2"], [2])]⟩ :=
  ⟨rfl, by decide⟩

theorem extract_single_level_join_witness :
    (extract_levels
        (⟨[some "a", some "b"], [(["x", "y"], [1]), (["x", "y"], [2])]⟩ : PDF Nat)
        none (some ["a", "b"]) =
      .ok ⟨[some "a", some "b"], [(["x", "y"], [1]), (["x", "y"], [2])]⟩ ∧
    extract_single_level
        (⟨[some "a", some "b"], [(["x", "y"], [1]), (["x", "y"], [2])]⟩ : PDF Nat)
        none (some ["a", "b"]) =
      .ok ⟨[none], [(["x, y"], [1]), (["x, y"], [2])]⟩) ∧
    ((1 < (⟨[some "a", some "b"],
          [(["x", "y"], [1]), (["x", "y"], [2])]⟩ : PDF Nat).names.length →
      (⟨[none], [(["x, y"], [1]), (["x, y"], [2])]⟩ : PDF Nat) =
        ⟨[none], (⟨[some "a", some "b"],
          [(["x", "y"], [1]), (["x", "y"], [2])]⟩ : PDF Nat).cols.map
            (fun c => ([joinComma c.1], c.2))⟩) ∧
    (¬ 1 < (⟨[some "a", some "b"],
          [(["x", "y"], [1]), (["x", "y"], [2])]⟩ : PDF Nat).names.length →
      (⟨[none], [(["x, y"], [1]), (["x, y"], [2])]⟩ : PDF Nat) =
        ⟨[some "a", some "b"], [(["x", "y"], [1]), (["x", "y"], [2])]⟩)) :=
  ⟨⟨rfl, rfl⟩, extract_single_level_join
    (⟨[some "a", some "b"], [(["x", "y"], [1]), (["x", "y"], [2])]⟩ : PDF Nat)
    none (some ["a", "b"]) _ _ rfl rfl⟩

/-- Claim C6 (amended): every successful `_build_dataframe` produces
columns sorted by header key in lexicographic tuple order, and so does
every `extract_levels` call that actually projects (levels given and
different from the current names); the no-op paths return the input's
column order unchanged. -/
theorem sorted_columns :
    (∀ (α : Type) (tss : List (TS α)) (label : Option String)
        (labels : Option (List String)) (df : PDF (Int × α)),
        _build_dataframe tss label labels = .ok df → List.Sorted colLe df.cols) ∧
    (∀ (α : Type) (df out : PDF α) (label : Option String)
        (labels : Option (List String)) (labs : List String),
        extract_levels df label labels = .ok out →
        effLabels label labels = some labs →
        labs.map some ≠ df.names →
        List.Sorted colLe out.cols) := by
  constructor
  · intro α tss label labels df h
    unfold _build_dataframe at h
    split_ifs at h
    obtain rfl := (Except.ok.inj h).symm
    exact sortCols_sorted _
  · intro α df out label labels labs h heff hne
    cases label with
    | some l =>
      cases labels with
      | some ls => rw [extract_levels_some_some] at h; cases h
      | none =>
        simp only [effLabels] at heff
        obtain rfl := (Option.some.inj heff).symm
        rw [extract_levels_some_none] at h
        rw [if_neg hne] at h
        split_ifs at h with hc
        cases hidx : df.names.indexOf? (some l) with
        | none => rw [hidx] at h; cases h
        | some i =>
          rw [hidx] at h
          simp only at h
          obtain rfl := (Except.ok.inj h).symm
          exact sortCols_sorted _
    | none =>
      cases labels with
      | none => cases heff
      | some ls =>
        simp only [effLabels] at heff
        obtain rfl := (Option.some.inj heff).symm
        rw [extract_levels_none_some] at h
        rw [if_neg hne] at h
        cases labs with
        | nil => simp only at h; cases h
        | cons l1 ls1 =>
          cases ls1 with
          | nil =>
            simp only at h
            split_ifs at h with hc
            cases hidx : df.names.indexOf? (some l1) with
            | none => rw [hidx] at h; cases h
            | some i =>
              rw [hidx] at h
              simp only at h
              obtain rfl := (Except.ok.inj h).symm
              exact sortCols_sorted _
          | cons l2 ls2 =>
            simp only at h
            split_ifs at h with hnd
            obtain rfl := (Except.ok.inj h).symm
            exact sortCols_sorted _

theorem sorted_columns_cex :
    extract_levels (⟨[some "k"], [(["b"], [1]), (["a"], [2])]⟩ : PDF Nat) none none =
      .ok ⟨[some "k"], [(["b"], [1]), (["a"], [2])]⟩ ∧
    ¬ List.Sorted colLe [((["b"] : List String), [(1 : Nat)]), (["a"], [2])] :=
  ⟨rfl, by decide⟩

theorem sorted_columns_witness :
    (_build_dataframe [(⟨[(0, 5)], "mt", "mk", "rt", [], []⟩ : TS Nat)]
        (some "metric_type") none =
      .ok ⟨[none], [(["mt"], [(0, 5)])]⟩ ∧
    effLabels none (some ["b"]) = some ["b"] ∧
    ["b"].map some ≠ ([some "a", some "b"] : List (Option String)) ∧
    extract_levels (⟨[some "a", some "b"], [(["x", "y"], [1])]⟩ : PDF Nat)
        none (some ["b"]) = .ok ⟨[some "b"], [(["y"], [1])]⟩) ∧
    List.Sorted colLe [((["mt"] : List String), [((0 : Int), (5 : Nat))])] ∧
    List.Sorted colLe [((["y"] : List String), [(1 : Nat)])] :=
  ⟨⟨rfl, rfl, by decide, rfl⟩,
    sorted_columns.1 Nat [⟨[(0, 5)], "mt", "mk", "rt", [], []⟩] (some "metric_type")
      none ⟨[none], [(["mt"], [(0, 5)])]⟩ rfl,
    sorted_columns.2 Nat (⟨[some "a", some "b"], [(["x", "y"], [1])]⟩ : PDF Nat)
      ⟨[some "b"], [(["y"], [1])]⟩ none (some ["b"]) ["b"] rfl rfl (by decide)⟩

/-! ### Object identity: a heap of dataframes -/

/-- `extract_levels` over an explicit heap of frames: the input is a heap
index; `dataframe.copy()` allocates a fresh cell, the later
`df_mult.columns = ...` assignments write through that fresh reference, and
the final `sort_index(axis=1)` allocates the returned frame. -/
def extract_levelsS {α : Type} (σ : List (PDF α)) (i : Nat) (label : Option String)
    (labels : Option (List String)) : Except PyErr (List (PDF α) × Nat) :=
  match σ[i]? with
  | none => .error .indexError
  | some df =>
    if label.isSome ∧ labels.isSome then .error .valueError
    else
      match effLabels label labels with
      | none => .ok (σ ++ [df], σ.length)
      | some labs =>
        if labs.map some = df.names then .ok (σ ++ [df], σ.length)
        else
          match labs with
          | [] => .error .valueError
          | [l] =>
            if 1 < df.names.count (some l) then .error .valueError
            else
              match df.names.indexOf? (some l) with
              | none => .error .keyError
              | some k =>
                .ok (((σ ++ [df]).set σ.length
                    ⟨[some l], df.cols.map (fun c => ([c.1.getD k ""], c.2))⟩) ++
                  [⟨[some l], sortCols (df.cols.map (fun c => ([c.1.getD k ""], c.2)))⟩],
                  σ.length + 1)
          | _ =>
            if df.names.Nodup then
              .ok (((σ ++ [df]).set σ.length
                  ⟨labs.map some,
                    df.cols.map (fun c => (labs.map (levelValues df.names c.1), c.2))⟩) ++
                [⟨labs.map some,
                  sortCols (df.cols.map (fun c => (labs.map (levelValues df.names c.1), c.2)))⟩],
                σ.length + 1)
            else .error .valueError

/-- `extract_single_level` over the heap: the flattening
`df_single.columns = [...]` writes through the reference returned by
`extract_levels`. -/
def extract_single_levelS {α : Type} (σ : List (PDF α)) (i : Nat)
    (label : Option String) (labels : Option (List String)) :
    Except PyErr (List (PDF α) × Nat) :=
  match extract_levelsS σ i label labels with
  | .error e => .error e
  | .ok (σ1, j) =>
    match σ1[j]? with
    | none => .error .indexError
    | some d =>
      if 1 < d.names.length then
        .ok (σ1.set j ⟨[none], d.cols.map (fun c => ([joinComma c.1], c.2))⟩, j)
      else .ok (σ1, j)

/-- `timesplit` over a heap of result sets: every returned partition is a
freshly sliced (and possibly shifted) frame. -/
def timesplitS {α : Type} (σ : List (QR α)) (i : Nat) (freq : String)
    (minPoints : Int) : Except PyErr (List (QR α) × List Nat) :=
  match σ[i]? with
  | none => .error .indexError
  | some q =>
    match timesplit q freq minPoints with
    | .error e => .error e
    | .ok outs => .ok (σ ++ outs, (List.range outs.length).map (fun k => σ.length + k))

theorem frame_append {β : Type} (σ l : List β) (j : Nat) (h : j < σ.length) :
    (σ ++ l)[j]? = σ[j]? :=
  List.getElem?_append_left h

theorem frame_set_append {β : Type} (σ : List β) (x v y : β) (j : Nat)
    (h : j < σ.length) :
    (((σ ++ [x]).set σ.length v) ++ [y])[j]? = σ[j]? := by
  rw [List.getElem?_append_left (by simp; omega), List.getElem?_set_ne (by omega),
    List.getElem?_append_left h]

theorem extract_levelsS_frame {α : Type} (σ : List (PDF α)) (i : Nat)
    (label : Option String) (labels : Option (List String))
    (σ2 : List (PDF α)) (r : Nat)
    (h : extract_levelsS σ i label labels = .ok (σ2, r)) :
    (∀ j, j < σ.length → σ2[j]? = σ[j]?) ∧ σ.length ≤ r := by
  unfold extract_levelsS at h
  cases hdf : σ[i]? with
  | none => rw [hdf] at h; cases h
  | some df =>
    rw [hdf] at h
    simp only at h
    by_cases hls : label.isSome ∧ labels.isSome
    · rw [if_pos hls] at h; cases h
    · rw [if_neg hls] at h
      cases heff : effLabels label labels with
      | none =>
        rw [heff] at h
        simp only at h
        obtain ⟨h1, h2⟩ := Prod.mk.injEq .. ▸ Except.ok.inj h
        subst h1; subst h2
        exact ⟨fun j hj => frame_append σ [df] j hj, by omega⟩
      | some labs =>
        rw [heff] at h
        simp only at h
        by_cases heq : labs.map some = df.names
        · rw [if_pos heq] at h
          obtain ⟨h1, h2⟩ := Prod.mk.injEq .. ▸ Except.ok.inj h
          subst h1; subst h2
          exact ⟨fun j hj => frame_append σ [df] j hj, by omega⟩
        · rw [if_neg heq] at h
          cases labs with
          | nil => simp only at h; cases h
          | cons l1 ls1 =>
            cases ls1 with
            | nil =>
              simp only at h
              by_cases hc : 1 < df.names.count (some l1)
              · rw [if_pos hc] at h; cases h
              · rw [if_neg hc] at h
                cases hidx : df.names.indexOf? (some l1) with
                | none => rw [hidx] at h; cases h
                | some k =>
                  rw [hidx] at h
                  simp only at h
                  obtain ⟨h1, h2⟩ := Prod.mk.injEq .. ▸ Except.ok.inj h
                  subst h1; subst h2
                  exact ⟨fun j hj => frame_set_append σ df _ _ j hj, by omega⟩
            | cons l2 ls2 =>
              simp only at h
              by_cases hnd : df.names.Nodup
              · rw [if_pos hnd] at h
                obtain ⟨h1, h2⟩ := Prod.mk.injEq .. ▸ Except.ok.inj h
                subst h1; subst h2
                exact ⟨fun j hj => frame_set_append σ df _ _ j hj, by omega⟩
              · rw [if_neg hnd] at h; cases h

theorem extract_single_levelS_frame {α : Type} (σ : List (PDF α)) (i : Nat)
    (label : Option String) (labels : Option (List String))
    (σ2 : List (PDF α)) (r : Nat)
    (h : extract_single_levelS σ i label labels = .ok (σ2, r)) :
    (∀ j, j < σ.length → σ2[j]? = σ[j]?) ∧ σ.length ≤ r := by
  unfold extract_single_levelS at h
  cases hlev : extract_levelsS σ i label labels with
  | error e => rw [hlev] at h; cases h
  | ok p =>
    obtain ⟨σ1, j⟩ := p
    rw [hlev] at h
    simp only at h
    obtain ⟨hpres, hle⟩ := extract_levelsS_frame σ i label labels σ1 j hlev
    cases hd : σ1[j]? with
    | none => rw [hd] at h; cases h
    | some d =>
      rw [hd] at h
      simp only at h
      split_ifs at h
      · obtain ⟨h1, h2⟩ := Prod.mk.injEq .. ▸ Except.ok.inj h
        subst h1; subst h2
        refine ⟨fun i2 hi2 => ?_, hle⟩
        rw [List.getElem?_set_ne (by omega)]
        exact hpres i2 hi2
      · obtain ⟨h1, h2⟩ := Prod.mk.injEq .. ▸ Except.ok.inj h
        subst h1; subst h2
        exact ⟨hpres, hle⟩

theorem timesplitS_frame {α : Type} (σ : List (QR α)) (i : Nat) (freq : String)
    (minPoints : Int) (σ2 : List (QR α)) (rs : List Nat)
    (h : timesplitS σ i freq minPoints = .ok (σ2, rs)) :
    (∀ j, j < σ.length → σ2[j]? = σ[j]?) ∧ ∀ r ∈ rs, σ.length ≤ r := by
  unfold timesplitS at h
  cases hq : σ[i]? with
  | none => rw [hq] at h; cases h
  | some q =>
    rw [hq] at h
    simp only at h
    cases hts : timesplit q freq minPoints with
    | error e => rw [hts] at h; cases h
    | ok outs =>
      rw [hts] at h
      simp only at h
      obtain ⟨h1, h2⟩ := Prod.mk.injEq .. ▸ Except.ok.inj h
      subst h1; subst h2
      refine ⟨fun j hj => frame_append σ outs j hj, ?_⟩
      intro r hr
      simp only [List.mem_map, List.mem_range] at hr
      obtain ⟨k, _, hk⟩ := hr
      omega

/-- Claim C9: over an explicit heap of frames, `extract_levels`,
`extract_single_level` and `timesplit` leave every pre-existing heap cell —
in particular their input table — untouched, and return only freshly
allocated frames. -/
theorem no_mutation :
    (∀ (α : Type) (σ : List (PDF α)) (i : Nat) (label : Option String)
        (labels : Option (List String)) (σ2 : List (PDF α)) (r : Nat),
        extract_levelsS σ i label labels = .ok (σ2, r) →
        (∀ j, j < σ.length → σ2[j]? = σ[j]?) ∧ σ.length ≤ r) ∧
    (∀ (α : Type) (σ : List (PDF α)) (i : Nat) (label : Option String)
        (labels : Option (List String)) (σ2 : List (PDF α)) (r : Nat),
        extract_single_levelS σ i label labels = .ok (σ2, r) →
        (∀ j, j < σ.length → σ2[j]? = σ[j]?) ∧ σ.length ≤ r) ∧
    (∀ (α : Type) (σ : List (QR α)) (i : Nat) (freq : String) (minPoints : Int)
        (σ2 : List (QR α)) (rs : List Nat),
        timesplitS σ i freq minPoints = .ok (σ2, rs) →
        (∀ j, j < σ.length → σ2[j]? = σ[j]?) ∧ ∀ r ∈ rs, σ.length ≤ r) :=
  ⟨fun _ σ i label labels σ2 r h => extract_levelsS_frame σ i label labels σ2 r h,
   fun _ σ i label labels σ2 r h => extract_single_levelS_frame σ i label labels σ2 r h,
   fun _ σ i freq minPoints σ2 rs h => timesplitS_frame σ i freq minPoints σ2 rs h⟩

theorem no_mutation_witness :
    (extract_single_levelS
        [(⟨[some "a", some "b"], [(["x", "y"], [1]), (["x", "y"], [2])]⟩ : PDF Nat)]
        0 none (some ["a", "b"]) =
      .ok ([⟨[some "a", some "b"], [(["x", "y"], [1]), (["x", "y"], [2])]⟩,
            ⟨[none], [(["x, y"], [1]), (["x, y"], [2])]⟩], 1) ∧
      timesplitS [(⟨[], "m"⟩ : QR Nat)] 0 "D" 2 = .ok ([⟨[], "m"⟩], [])) ∧
    ((∀ j, j < ([(⟨[some "a", some "b"],
          [(["x", "y"], [1]), (["x", "y"], [2])]⟩ : PDF Nat)]).length →
        ([(⟨[some "a", some "b"], [(["x", "y"], [1]), (["x", "y"], [2])]⟩ : PDF Nat),
          ⟨[none], [(["x, y"], [1]), (["x, y"], [2])]⟩])[j]? =
          ([(⟨[some "a", some "b"], [(["x", "y"], [1]), (["x", "y"], [2])]⟩ : PDF Nat)])[j]?) ∧
      ([(⟨[some "a", some "b"],
          [(["x", "y"], [1]), (["x", "y"], [2])]⟩ : PDF Nat)]).length ≤ 1) ∧
    ((∀ j, j < ([(⟨[], "m"⟩ : QR Nat)]).length →
        ([(⟨[], "m"⟩ : QR Nat)])[j]? = ([(⟨[], "m"⟩ : QR Nat)])[j]?) ∧
      ∀ r ∈ ([] : List Nat), ([(⟨[], "m"⟩ : QR Nat)]).length ≤ r) :=
  ⟨⟨rfl, rfl⟩,
   no_mutation.2.1 Nat
     [(⟨[some "a", some "b"], [(["x", "y"], [1]), (["x", "y"], [2])]⟩ : PDF Nat)]
     0 none (some ["a", "b"]) _ 1 rfl,
   no_mutation.2.2 Nat [(⟨[], "m"⟩ : QR Nat)] 0 "D" 2 _ [] rfl⟩
